import Mathlib

/-!
Verification of the doubly-linked-list library (src/lists) against its
natural-language specification.

The two Rust engines are embedded shallowly over one explicit heap model:

* a heap is an association list from node ids (modelling heap addresses)
  to nodes; a `prev` / `next` field holds an optional node id, exactly as
  the Rust `Option<NonNull<Node<T>>>` / `Link<T>` / `WeakLink<T>` fields
  hold optional pointers;
* a list state (`LState`) holds the heap together with the struct fields
  `head`, `tail`, `len` of the Rust structs, plus the allocator counter
  `fresh` used to hand out addresses for new allocations;
* deallocation removes the entry from the heap; ids stored in fields keep
  their value, so a dangling pointer is an id with no heap entry;
* operations of `UnsafeLinkedList` that dereference a raw pointer, and
  operations of `SafeLinkedList` that can panic (`Rc::try_unwrap ... unwrap`),
  return `Option`: `none` models the fault, `some` the normal result;
* `Rc` strong counts of the safe engine are derived by counting the strong
  references (`head` slot, `tail` slot, `next` fields); `Weak::upgrade`
  succeeds exactly when the target id is still allocated.
-/

/-- One list node: payload plus the two directional relations,
modelling `Node<T> { data, prev, next }` of both engines. -/
structure Node (α : Type) where
  data : α
  prev : Option Nat
  next : Option Nat
deriving DecidableEq

/-- A heap of allocated nodes, keyed by node id (address). -/
abbrev HeapT (α : Type) : Type := List (Nat × Node α)

/-- State of a linked list: the Rust struct fields `head`, `tail`, `len`
together with the ambient heap of allocated nodes and the allocator
counter `fresh` (all previously handed-out ids are < `fresh`). -/
structure LState (α : Type) where
  heap : HeapT α
  head : Option Nat
  tail : Option Nat
  len : Nat
  fresh : Nat
deriving DecidableEq

/-- Dereference a node pointer: `some` when the id is allocated. -/
def lookupH {α : Type} : HeapT α → Nat → Option (Node α)
  | [], _ => none
  | p :: t, i => if p.1 = i then some p.2 else lookupH t i

/-- Overwrite the `next` field of the node at id `i` (no-op if unallocated). -/
def updNext {α : Type} : HeapT α → Nat → Option Nat → HeapT α
  | [], _, _ => []
  | p :: t, i, v =>
    (if p.1 = i then (p.1, { p.2 with next := v }) else p) :: updNext t i v

/-- Overwrite the `prev` field of the node at id `i` (no-op if unallocated). -/
def updPrev {α : Type} : HeapT α → Nat → Option Nat → HeapT α
  | [], _, _ => []
  | p :: t, i, v =>
    (if p.1 = i then (p.1, { p.2 with prev := v }) else p) :: updPrev t i v

/-- Deallocate the node at id `i`. -/
def removeH {α : Type} : HeapT α → Nat → HeapT α
  | [], _ => []
  | p :: t, i => if p.1 = i then removeH t i else p :: removeH t i

/-- Write the `next` field through a list state. -/
def setNext {α : Type} (s : LState α) (i : Nat) (v : Option Nat) : LState α :=
  { s with heap := updNext s.heap i v }

/-- Write the `prev` field through a list state. -/
def setPrev {α : Type} (s : LState α) (i : Nat) (v : Option Nat) : LState α :=
  { s with heap := updPrev s.heap i v }

/-- Follow the link selected by `link` for `k` steps from `cur`,
modelling the pointer-chasing loops of the source (`node = node.next` /
`node = node.prev`); `none` when a null pointer is stepped through or a
dangling pointer is dereferenced. -/
def iterLink {α : Type} (h : HeapT α) (link : Node α → Option Nat) :
    Option Nat → Nat → Option Nat
  | cur, 0 => cur
  | none, _ + 1 => none
  | some i, k + 1 =>
    match lookupH h i with
    | none => none
    | some n => iterLink h link (link n) k

/-- The chain check: starting at pointer `cur`, the nodes `ids` are visited
in order following `link`, and the link of the last node equals `e`.
Instantiated with `next` it checks the head-to-tail chain, with `prev`
the tail-to-head chain. -/
def followB {α : Type} (h : HeapT α) (link : Node α → Option Nat) :
    Option Nat → List Nat → Option Nat → Bool
  | cur, [], e => decide (cur = e)
  | cur, i :: ids, e =>
    decide (cur = some i) &&
      match lookupH h i with
      | none => false
      | some n => followB h link (link n) ids e

/-- The payloads stored at `ids`, in order (ids with no heap entry are
skipped; under a well-formed chain every lookup succeeds). -/
def chainData {α : Type} (h : HeapT α) (ids : List Nat) : List α :=
  ids.filterMap fun i => (lookupH h i).map (·.data)

/-- Comma-separated rendering, as produced by both `fmt::Display` impls. -/
def commaJoin : List String → String
  | [] => ""
  | [x] => x
  | x :: xs => x ++ ", " ++ commaJoin xs

/-- The traversal loop of both `fmt::Display` impls: write the value, step
to `next`, write ", " when another node follows. `fuel` bounds the walk
(the Rust loop runs until a null pointer; on the acyclic chains of a
well-formed list, `heap.length` steps always suffice). -/
def displayAux {α : Type} (h : HeapT α) (f : α → String) :
    Nat → Option Nat → String
  | _, none => ""
  | 0, some _ => ""
  | fuel + 1, some i =>
    match lookupH h i with
    | none => ""
    | some n =>
      f n.data ++ (if n.next.isSome then ", " else "") ++
        displayAux h f fuel n.next

/-- Model of `impl fmt::Display` of both engines: values from the `head`
field following `next`, comma separated, bracket delimited. -/
def displayString {α : Type} (f : α → String) (s : LState α) : String :=
  "[" ++ displayAux s.heap f s.heap.length s.head ++ "]"

/-- Linear traversal from the head-side pointer, `i` steps forward along
`next`, reading the payload found there (the reference semantics used by
the specification for `nth`). -/
def headTraverse {α : Type} (s : LState α) (i : Nat) : Option α :=
  (iterLink s.heap (fun n => n.next) s.head i).bind fun j =>
    (lookupH s.heap j).map (·.data)

namespace UnsafeLinkedList

variable {α : Type}

/-- Model of `UnsafeLinkedList::new`. -/
def new : LState α :=
  { heap := [], head := none, tail := none, len := 0, fresh := 0 }

/-- Model of `UnsafeLinkedList::push_front` (source lines 42-55): allocate a
node with `prev = self.tail`, link the old tail's `next` to it (or set
`head` when the list was empty), then set `tail` and bump `len`. -/
def push_front (s : LState α) (value : α) : LState α :=
  let id := s.fresh
  let node : Node α := { data := value, prev := s.tail, next := none }
  let s1 : LState α := { s with heap := (id, node) :: s.heap, fresh := id + 1 }
  let s2 : LState α :=
    match s1.tail with
    | none => { s1 with head := some id }
    | some t => setNext s1 t (some id)
  { s2 with tail := some id, len := s2.len + 1 }

/-- Model of `UnsafeLinkedList::push_back` (source lines 57-70). -/
def push_back (s : LState α) (value : α) : LState α :=
  let id := s.fresh
  let node : Node α := { data := value, prev := none, next := s.head }
  let s1 : LState α := { s with heap := (id, node) :: s.heap, fresh := id + 1 }
  let s2 : LState α :=
    match s1.head with
    | none => { s1 with tail := some id }
    | some hd => setPrev s1 hd (some id)
  { s2 with head := some id, len := s2.len + 1 }

/-- Model of `UnsafeLinkedList::pop_front` (source lines 72-80): take the
node behind `self.tail` back into a `Box` (deallocating it), set
`self.tail = tail.prev`, decrement `len`, return the payload. The outer
`none` models undefined behaviour (`Box::from_raw` on a dangling pointer).
Note the source touches neither `self.head` nor the new tail's `next`. -/
def pop_front (s : LState α) : Option (Option α × LState α) :=
  match s.tail with
  | none => some (none, s)
  | some t =>
    match lookupH s.heap t with
    | none => none
    | some n =>
      some (some n.data,
        { s with heap := removeH s.heap t, tail := n.prev, len := s.len - 1 })

/-- Model of `UnsafeLinkedList::pop_back` (source lines 82-90), symmetric to
`pop_front`: frees the node behind `self.head`, sets `self.head = head.next`.
Neither `self.tail` nor the new head's `prev` is touched. -/
def pop_back (s : LState α) : Option (Option α × LState α) :=
  match s.head with
  | none => some (none, s)
  | some hd =>
    match lookupH s.heap hd with
    | none => none
    | some n =>
      some (some n.data,
        { s with heap := removeH s.heap hd, head := n.next, len := s.len - 1 })

/-- Model of `UnsafeLinkedList::nth` (source lines 92-114). Out-of-range
indices return `(none, s)`. In range, the node is found from the closer
terminal; then the source does `Box::from_raw(node.unwrap().as_ptr())` and
lets the box drop, so the visited node is deallocated even though the list
still references it: the returned state has the node removed from the heap.
The outer `none` models the panic of `unwrap` on a null pointer or the
undefined behaviour of dereferencing a dangling one. -/
def nth (s : LState α) (index : Nat) : Option (Option α × LState α) :=
  if index ≥ s.len then
    some (none, s)
  else if index < s.len / 2 then
    match iterLink s.heap (fun n => n.next) s.head index with
    | none => none
    | some i =>
      match lookupH s.heap i with
      | none => none
      | some n => some (some n.data, { s with heap := removeH s.heap i })
  else
    match iterLink s.heap (fun n => n.prev) s.tail (s.len - index - 1) with
    | none => none
    | some i =>
      match lookupH s.heap i with
      | none => none
      | some n => some (some n.data, { s with heap := removeH s.heap i })

/-- Model of `UnsafeLinkedList::front` (reads the value behind `self.tail`). -/
def front (s : LState α) : Option α :=
  s.tail.bind fun i => (lookupH s.heap i).map (·.data)

/-- Model of `UnsafeLinkedList::front_mut` (same value read as `front`). -/
def front_mut (s : LState α) : Option α :=
  s.tail.bind fun i => (lookupH s.heap i).map (·.data)

/-- Model of `UnsafeLinkedList::back` (reads the value behind `self.head`). -/
def back (s : LState α) : Option α :=
  s.head.bind fun i => (lookupH s.heap i).map (·.data)

/-- Model of `UnsafeLinkedList::back_mut`. -/
def back_mut (s : LState α) : Option α :=
  s.head.bind fun i => (lookupH s.heap i).map (·.data)

/-- Model of `UnsafeLinkedList::clear`, which is `*self = Self::new()`:
the struct fields are reset but no node is deallocated — there is no
`Drop` impl in the source, so the heap is left untouched. -/
def clear (s : LState α) : LState α :=
  { s with head := none, tail := none, len := 0 }

/-- Model of repeatedly calling `Iter::next` (which is `self.list.pop_back()`,
source lines 182-188) until it yields `None`, collecting the produced
values and the final state. `fuel` bounds the loop; `s.len` steps suffice
for a well-formed list. -/
def drain : Nat → LState α → List α × LState α
  | 0, s => ([], s)
  | fuel + 1, s =>
    match pop_back s with
    | some (some v, s1) =>
      let r := drain fuel s1
      (v :: r.1, r.2)
    | some (none, s1) => ([], s1)
    | none => ([], s)

end UnsafeLinkedList

namespace SafeLinkedList

variable {α : Type}

/-- Derived `Rc` strong count of node `i` held by the list structure:
the `head` slot, the `tail` slot, and every `next` field are the strong
references of the safe engine (`prev` is a `Weak`). Local variables inside
an operation hold further strong references and are accounted for at the
point of use. -/
def strongRefs (s : LState α) (i : Nat) : Nat :=
  (if s.head = some i then 1 else 0) + (if s.tail = some i then 1 else 0) +
    (s.heap.filter fun p => decide (p.2.next = some i)).length

/-- Model of `SafeLinkedList::new`. -/
def new : LState α :=
  { heap := [], head := none, tail := none, len := 0, fresh := 0 }

/-- Model of `SafeLinkedList::push_front` (source lines 45-61): bump `len`,
allocate the node, then either link it behind the old tail (weak `prev`
to the old tail, strong `next` from the old tail) or make it both
terminals of the previously empty list. -/
def push_front (s : LState α) (value : α) : LState α :=
  let s1 : LState α := { s with len := s.len + 1 }
  let id := s1.fresh
  let node : Node α := { data := value, prev := none, next := none }
  let s2 : LState α := { s1 with heap := (id, node) :: s1.heap, fresh := id + 1 }
  match s2.tail with
  | some ot =>
    let s3 := setPrev s2 id (some ot)
    let s4 := setNext s3 ot (some id)
    { s4 with tail := some id }
  | none =>
    { s2 with head := some id, tail := some id }

/-- Model of `SafeLinkedList::push_back` (source lines 63-79). -/
def push_back (s : LState α) (value : α) : LState α :=
  let s1 : LState α := { s with len := s.len + 1 }
  let id := s1.fresh
  let node : Node α := { data := value, prev := none, next := none }
  let s2 : LState α := { s1 with heap := (id, node) :: s1.heap, fresh := id + 1 }
  match s2.head with
  | some oh =>
    let s3 := setPrev s2 oh (some id)
    let s4 := setNext s3 id (some oh)
    { s4 with head := some id }
  | none =>
    { s2 with head := some id, tail := some id }

/-- Model of `SafeLinkedList::pop_front` (source lines 81-102): when one
element is left, drop the `head` slot first; take the `tail` slot into
`old_tail`, take its weak `prev`, upgrade it (succeeds exactly when the
target is still allocated), store the upgrade in `tail` and clear the new
tail's `next`; finally `Rc::try_unwrap(old_tail).ok().unwrap()`, which
succeeds exactly when the local `old_tail` is the only remaining strong
reference, i.e. `strongRefs = 0` for the structure. The outer `none`
models the panic of that `unwrap`. -/
def pop_front (s : LState α) : Option (Option α × LState α) :=
  let s0 : LState α := if s.len = 1 then { s with head := none } else s
  match s0.tail with
  | none => some (none, s0)
  | some ot =>
    let s1 : LState α := { s0 with tail := none, len := s0.len - 1 }
    match lookupH s1.heap ot with
    | none => none
    | some otn =>
      let s2 := setPrev s1 ot none
      let s3 : LState α :=
        match otn.prev with
        | none => s2
        | some p =>
          let nt : Option Nat := if (lookupH s2.heap p).isSome then some p else none
          let s2a : LState α := { s2 with tail := nt }
          match nt with
          | none => s2a
          | some ntId => setNext s2a ntId none
      if strongRefs s3 ot = 0 then
        match lookupH s3.heap ot with
        | none => none
        | some n => some (some n.data, { s3 with heap := removeH s3.heap ot })
      else none

/-- Model of `SafeLinkedList::pop_back` (source lines 104-121): when one
element is left, drop the `tail` slot first; take the `head` slot into
`old_head`, take its strong `next`, clear the new head's `prev` and store
it in `head`; then `Rc::try_unwrap(old_head).ok().unwrap()` as above. -/
def pop_back (s : LState α) : Option (Option α × LState α) :=
  let s0 : LState α := if s.len = 1 then { s with tail := none } else s
  match s0.head with
  | none => some (none, s0)
  | some oh =>
    let s1 : LState α := { s0 with head := none, len := s0.len - 1 }
    match lookupH s1.heap oh with
    | none => none
    | some ohn =>
      let s2 := setNext s1 oh none
      let s3 : LState α :=
        match ohn.next with
        | none => s2
        | some nh =>
          let s2a := setPrev s2 nh none
          { s2a with head := some nh }
      if strongRefs s3 oh = 0 then
        match lookupH s3.heap oh with
        | none => none
        | some n => some (some n.data, { s3 with heap := removeH s3.heap oh })
      else none

/-- Model of `SafeLinkedList::peek_front` (reads the value behind `tail`). -/
def peek_front (s : LState α) : Option α :=
  s.tail.bind fun i => (lookupH s.heap i).map (·.data)

/-- Model of `SafeLinkedList::peek_back` (reads the value behind `head`). -/
def peek_back (s : LState α) : Option α :=
  s.head.bind fun i => (lookupH s.heap i).map (·.data)

/-- Model of `SafeLinkedList::peek_front_mut` (same value access). -/
def peek_front_mut (s : LState α) : Option α :=
  s.tail.bind fun i => (lookupH s.heap i).map (·.data)

/-- Model of `SafeLinkedList::peek_back_mut`. -/
def peek_back_mut (s : LState α) : Option α :=
  s.head.bind fun i => (lookupH s.heap i).map (·.data)

/-- Model of repeatedly calling `Iter::next` (which is `self.list.pop_back()`,
source lines 209-215) until `None`. -/
def drain : Nat → LState α → List α × LState α
  | 0, s => ([], s)
  | fuel + 1, s =>
    match pop_back s with
    | some (some v, s1) =>
      let r := drain fuel s1
      (v :: r.1, r.2)
    | some (none, s1) => ([], s1)
    | none => ([], s)

end SafeLinkedList

/-- Model of the `linked_list!` macro's literal form (src/lists/macros.rs,
lines 6-16): start from `UnsafeLinkedList::new()` and `push_front` each
literal element from left to right. -/
def linked_list {α : Type} (vs : List α) : LState α :=
  vs.foldl UnsafeLinkedList.push_front UnsafeLinkedList.new

/-- An insertion operation of either end (the two insertion primitives). -/
inductive PushOp (α : Type) where
  | front (v : α)
  | back (v : α)

/-- Run a sequence of insertions on the unsafe engine. -/
def buildFromU {α : Type} (s : LState α) (ops : List (PushOp α)) : LState α :=
  ops.foldl
    (fun t op =>
      match op with
      | .front v => UnsafeLinkedList.push_front t v
      | .back v => UnsafeLinkedList.push_back t v) s

/-- Run a sequence of insertions on the safe engine. -/
def buildFromS {α : Type} (s : LState α) (ops : List (PushOp α)) : LState α :=
  ops.foldl
    (fun t op =>
      match op with
      | .front v => SafeLinkedList.push_front t v
      | .back v => SafeLinkedList.push_back t v) s

/-- The keys (addresses) of a heap. -/
def heapKeys {α : Type} : HeapT α → List Nat
  | [] => []
  | p :: t => p.1 :: heapKeys t

/-- Allocator soundness: every allocated address is below `fresh`. -/
def FreshInv {α : Type} (s : LState α) : Prop :=
  ∀ k ∈ heapKeys s.heap, k < s.fresh

/-- Representation invariant of a well-formed doubly-linked list whose
nodes, from the `head` field to the `tail` field, are `ids`:
the `next` chain from `head` visits `ids` and ends null, the `prev` chain
from `tail` visits `ids` reversed and ends null, `len` counts them, the
ids are distinct, and the heap contains exactly those nodes (with distinct
addresses, all below the allocator counter). -/
def RepInv {α : Type} (s : LState α) (ids : List Nat) : Prop :=
  followB s.heap (fun n => n.next) s.head ids none = true ∧
  followB s.heap (fun n => n.prev) s.tail ids.reverse none = true ∧
  s.len = ids.length ∧
  ids.Nodup ∧
  (∀ k ∈ heapKeys s.heap, k ∈ ids) ∧
  (heapKeys s.heap).Nodup ∧
  FreshInv s

/-- The weaker invariant maintained by the unsafe engine's `pop_back`
drain: only the `next` chain from `head` is intact (the freed ids left
dangling in `prev` fields and in `tail` are unconstrained). -/
def RepNexts {α : Type} (s : LState α) (ids : List Nat) : Prop :=
  followB s.heap (fun n => n.next) s.head ids none = true ∧
  ids.Nodup ∧
  s.len = ids.length

instance {α : Type} [DecidableEq α] (s : LState α) (ids : List Nat) :
    Decidable (RepInv s ids) := by
  unfold RepInv FreshInv
  infer_instance

instance {α : Type} [DecidableEq α] (s : LState α) (ids : List Nat) :
    Decidable (RepNexts s ids) := by
  unfold RepNexts
  infer_instance


section HeapLemmas

variable {α : Type}

theorem lookupH_updNext_self (h : HeapT α) (i : Nat) (v : Option Nat) :
    lookupH (updNext h i v) i = (lookupH h i).map fun n => { n with next := v } := by
  induction h with
  | nil => rfl
  | cons p t ih =>
    by_cases hp : p.1 = i <;> simp [updNext, lookupH, hp, ih]

theorem lookupH_updNext_ne (h : HeapT α) {i j : Nat} (v : Option Nat)
    (hne : j ≠ i) : lookupH (updNext h i v) j = lookupH h j := by
  induction h with
  | nil => rfl
  | cons p t ih =>
    by_cases hp : p.1 = i
    · subst hp
      simp [updNext, lookupH, Ne.symm hne, ih]
    · by_cases hq : p.1 = j <;> simp [updNext, lookupH, hp, hq, hne, ih]

theorem lookupH_updPrev_self (h : HeapT α) (i : Nat) (v : Option Nat) :
    lookupH (updPrev h i v) i = (lookupH h i).map fun n => { n with prev := v } := by
  induction h with
  | nil => rfl
  | cons p t ih =>
    by_cases hp : p.1 = i <;> simp [updPrev, lookupH, hp, ih]

theorem lookupH_updPrev_ne (h : HeapT α) {i j : Nat} (v : Option Nat)
    (hne : j ≠ i) : lookupH (updPrev h i v) j = lookupH h j := by
  induction h with
  | nil => rfl
  | cons p t ih =>
    by_cases hp : p.1 = i
    · subst hp
      simp [updPrev, lookupH, Ne.symm hne, ih]
    · by_cases hq : p.1 = j <;> simp [updPrev, lookupH, hp, hq, hne, ih]

theorem lookupH_removeH_self (h : HeapT α) (i : Nat) :
    lookupH (removeH h i) i = none := by
  induction h with
  | nil => rfl
  | cons p t ih =>
    by_cases hp : p.1 = i <;> simp [removeH, lookupH, hp, ih]

theorem lookupH_removeH_ne (h : HeapT α) {i j : Nat} (hne : j ≠ i) :
    lookupH (removeH h i) j = lookupH h j := by
  induction h with
  | nil => rfl
  | cons p t ih =>
    by_cases hp : p.1 = i
    · subst hp
      simp [removeH, lookupH, Ne.symm hne, ih]
    · by_cases hq : p.1 = j <;> simp [removeH, lookupH, hp, hq, hne, ih]

theorem heapKeys_updNext (h : HeapT α) (i : Nat) (v : Option Nat) :
    heapKeys (updNext h i v) = heapKeys h := by
  induction h with
  | nil => rfl
  | cons p t ih =>
    by_cases hp : p.1 = i <;> simp [updNext, heapKeys, hp, ih]

theorem heapKeys_updPrev (h : HeapT α) (i : Nat) (v : Option Nat) :
    heapKeys (updPrev h i v) = heapKeys h := by
  induction h with
  | nil => rfl
  | cons p t ih =>
    by_cases hp : p.1 = i <;> simp [updPrev, heapKeys, hp, ih]

theorem heapKeys_removeH_sublist (h : HeapT α) (i : Nat) :
    (heapKeys (removeH h i)).Sublist (heapKeys h) := by
  induction h with
  | nil => simp [removeH]
  | cons p t ih =>
    by_cases hp : p.1 = i
    · rw [removeH, if_pos hp, heapKeys]
      exact ih.cons p.1
    · rw [removeH, if_neg hp, heapKeys, heapKeys]
      exact ih.cons₂ p.1

theorem removeH_sublist (h : HeapT α) (i : Nat) : (removeH h i).Sublist h := by
  induction h with
  | nil => simp [removeH]
  | cons p t ih =>
    by_cases hp : p.1 = i
    · rw [removeH, if_pos hp]
      exact ih.cons p
    · rw [removeH, if_neg hp]
      exact ih.cons₂ p

theorem mem_heapKeys_removeH {h : HeapT α} {i k : Nat}
    (hk : k ∈ heapKeys (removeH h i)) : k ∈ heapKeys h ∧ k ≠ i := by
  induction h with
  | nil => simp [removeH, heapKeys] at hk
  | cons p t ih =>
    by_cases hp : p.1 = i
    · rw [removeH, if_pos hp] at hk
      rcases ih hk with ⟨h1, h2⟩
      exact ⟨by simp [heapKeys, h1], h2⟩
    · rw [removeH, if_neg hp, heapKeys] at hk
      rcases List.mem_cons.mp hk with rfl | hk
      · exact ⟨by simp [heapKeys], hp⟩
      · rcases ih hk with ⟨h1, h2⟩
        exact ⟨by simp [heapKeys, h1], h2⟩

theorem heapKeys_removeH_nodup {h : HeapT α} (hn : (heapKeys h).Nodup) (i : Nat) :
    (heapKeys (removeH h i)).Nodup :=
  hn.sublist (heapKeys_removeH_sublist h i)

theorem mem_heapKeys_of_lookup {h : HeapT α} {j : Nat} {n : Node α}
    (hl : lookupH h j = some n) : j ∈ heapKeys h := by
  induction h with
  | nil => simp [lookupH] at hl
  | cons p t ih =>
    by_cases hp : p.1 = j
    · simp [heapKeys, hp]
    · rw [lookupH, if_neg hp] at hl
      simp [heapKeys, ih hl]

theorem lookup_eq_none_of_not_mem {h : HeapT α} {j : Nat}
    (hj : j ∉ heapKeys h) : lookupH h j = none := by
  induction h with
  | nil => rfl
  | cons p t ih =>
    rw [heapKeys] at hj
    simp only [List.mem_cons, not_or] at hj
    rw [lookupH, if_neg (fun hp => hj.1 hp.symm)]
    exact ih hj.2

theorem mem_heapKeys_of_mem {h : HeapT α} {p : Nat × Node α} (hp : p ∈ h) :
    p.1 ∈ heapKeys h := by
  induction h with
  | nil => simp at hp
  | cons q t ih =>
    rcases List.mem_cons.mp hp with rfl | hp
    · simp [heapKeys]
    · simp [heapKeys, ih hp]

theorem lookup_of_mem_nodupKeys {h : HeapT α} (hn : (heapKeys h).Nodup)
    {p : Nat × Node α} (hp : p ∈ h) : lookupH h p.1 = some p.2 := by
  induction h with
  | nil => simp at hp
  | cons q t ih =>
    rw [heapKeys, List.nodup_cons] at hn
    rcases List.mem_cons.mp hp with rfl | hp
    · simp [lookupH]
    · have hq : q.1 ≠ p.1 := fun he => hn.1 (he ▸ mem_heapKeys_of_mem hp)
      rw [lookupH, if_neg hq]
      exact ih hn.2 hp

theorem mem_updPrev {h : HeapT α} {i : Nat} {v : Option Nat}
    {p : Nat × Node α} (hp : p ∈ updPrev h i v) :
    ∃ q ∈ h, p.1 = q.1 ∧ p.2.next = q.2.next ∧ p.2.data = q.2.data := by
  induction h with
  | nil => simp [updPrev] at hp
  | cons r t ih =>
    rw [updPrev] at hp
    rcases List.mem_cons.mp hp with rfl | hp
    · by_cases hr : r.1 = i
      · exact ⟨r, List.mem_cons_self _ _, by simp [hr]⟩
      · exact ⟨r, List.mem_cons_self _ _, by simp [hr]⟩
    · rcases ih hp with ⟨q, hq, he⟩
      exact ⟨q, List.mem_cons_of_mem _ hq, he⟩

theorem mem_updNext {h : HeapT α} {i : Nat} {v : Option Nat}
    {p : Nat × Node α} (hp : p ∈ updNext h i v) :
    ∃ q ∈ h, p.1 = q.1 ∧ p.2.next = (if q.1 = i then v else q.2.next) := by
  induction h with
  | nil => simp [updNext] at hp
  | cons r t ih =>
    rw [updNext] at hp
    rcases List.mem_cons.mp hp with rfl | hp
    · by_cases hr : r.1 = i
      · exact ⟨r, List.mem_cons_self _ _, by simp [hr]⟩
      · exact ⟨r, List.mem_cons_self _ _, by simp [hr]⟩
    · rcases ih hp with ⟨q, hq, he⟩
      exact ⟨q, List.mem_cons_of_mem _ hq, he⟩

theorem mem_of_mem_removeH {h : HeapT α} {i : Nat} {p : Nat × Node α}
    (hp : p ∈ removeH h i) : p ∈ h :=
  (removeH_sublist h i).mem hp

theorem updNext_eq_of_not_mem {h : HeapT α} {i : Nat} (v : Option Nat)
    (hi : i ∉ heapKeys h) : updNext h i v = h := by
  induction h with
  | nil => rfl
  | cons p t ih =>
    rw [heapKeys] at hi
    simp only [List.mem_cons, not_or] at hi
    rw [updNext, if_neg (fun hp => hi.1 hp.symm), ih hi.2]

theorem updPrev_eq_of_not_mem {h : HeapT α} {i : Nat} (v : Option Nat)
    (hi : i ∉ heapKeys h) : updPrev h i v = h := by
  induction h with
  | nil => rfl
  | cons p t ih =>
    rw [heapKeys] at hi
    simp only [List.mem_cons, not_or] at hi
    rw [updPrev, if_neg (fun hp => hi.1 hp.symm), ih hi.2]

end HeapLemmas

section ChainLemmas

variable {α : Type}

theorem heapKeys_length (h : HeapT α) : (heapKeys h).length = h.length := by
  induction h with
  | nil => rfl
  | cons p t ih => rw [heapKeys, List.length_cons, List.length_cons, ih]

theorem followB_congr {h1 h2 : HeapT α} {l : Node α → Option Nat}
    {ids : List Nat}
    (hc : ∀ j ∈ ids, (lookupH h1 j).map l = (lookupH h2 j).map l) :
    ∀ cur e, followB h1 l cur ids e = followB h2 l cur ids e := by
  induction ids with
  | nil => intro cur e; rfl
  | cons i t ih =>
    intro cur e
    have hkey := hc i (List.mem_cons_self i t)
    cases hl1 : lookupH h1 i with
    | none =>
      rw [hl1, Option.map_none'] at hkey
      have hl2 := Option.map_eq_none'.mp hkey.symm
      simp only [followB, hl1, hl2]
    | some n1 =>
      rw [hl1, Option.map_some'] at hkey
      rcases Option.map_eq_some'.mp hkey.symm with ⟨n2, hl2, he⟩
      simp only [followB, hl1, hl2]
      rw [he, ih (fun j hj => hc j (List.mem_cons_of_mem i hj)) (l n1) e]

theorem followB_snoc {h : HeapT α} {l : Node α → Option Nat}
    {ids : List Nat} {y : Nat} {n : Node α}
    (hy : lookupH h y = some n) :
    ∀ cur, followB h l cur ids (some y) = true →
      followB h l cur (ids ++ [y]) (l n) = true := by
  induction ids with
  | nil =>
    intro cur hf
    rw [followB, decide_eq_true_eq] at hf
    simp only [List.nil_append, followB, hf, hy]
    simp
  | cons i t ih =>
    intro cur hf
    rw [followB, Bool.and_eq_true] at hf
    rcases hf with ⟨hcur, hrest⟩
    rw [List.cons_append, followB, Bool.and_eq_true]
    refine ⟨hcur, ?_⟩
    cases hl : lookupH h i with
    | none => rw [hl] at hrest; exact absurd hrest (by simp)
    | some m =>
      rw [hl] at hrest
      exact ih (l m) hrest

theorem followB_unsnoc {h : HeapT α} {l : Node α → Option Nat}
    {ids : List Nat} {y : Nat} {e : Option Nat} :
    ∀ cur, followB h l cur (ids ++ [y]) e = true →
      ∃ n, lookupH h y = some n ∧ l n = e ∧
        followB h l cur ids (some y) = true := by
  induction ids with
  | nil =>
    intro cur hf
    rw [List.nil_append, followB, Bool.and_eq_true, decide_eq_true_eq] at hf
    rcases hf with ⟨hcur, hrest⟩
    cases hl : lookupH h y with
    | none => rw [hl] at hrest; exact absurd hrest (by simp)
    | some n =>
      rw [hl] at hrest
      have hend : followB h l (l n) [] e = true := hrest
      rw [followB, decide_eq_true_eq] at hend
      exact ⟨n, rfl, hend, by rw [followB, decide_eq_true_eq]; exact hcur⟩
  | cons i t ih =>
    intro cur hf
    rw [List.cons_append, followB, Bool.and_eq_true] at hf
    rcases hf with ⟨hcur, hrest⟩
    cases hl : lookupH h i with
    | none => rw [hl] at hrest; exact absurd hrest (by simp)
    | some m =>
      rw [hl] at hrest
      rcases ih (l m) hrest with ⟨n, hn, he, hfol⟩
      refine ⟨n, hn, he, ?_⟩
      rw [followB, Bool.and_eq_true, hl]
      exact ⟨hcur, hfol⟩

theorem followB_lookup_some {h : HeapT α} {l : Node α → Option Nat}
    {ids : List Nat} {e : Option Nat} :
    ∀ cur, followB h l cur ids e = true →
      ∀ j ∈ ids, ∃ n, lookupH h j = some n := by
  induction ids with
  | nil => intro cur _ j hj; simp at hj
  | cons i t ih =>
    intro cur hf j hj
    rw [followB, Bool.and_eq_true] at hf
    rcases hf with ⟨_, hrest⟩
    cases hl : lookupH h i with
    | none => rw [hl] at hrest; exact absurd hrest (by simp)
    | some m =>
      rw [hl] at hrest
      rcases List.mem_cons.mp hj with rfl | hj
      · exact ⟨m, hl⟩
      · exact ih (l m) hrest j hj

theorem followB_iterLink {h : HeapT α} {l : Node α → Option Nat}
    {ids : List Nat} {e : Option Nat} :
    ∀ cur k, followB h l cur ids e = true → k < ids.length →
      iterLink h l cur k = ids[k]? := by
  induction ids with
  | nil => intro cur k _ hk; simp at hk
  | cons i t ih =>
    intro cur k hf hk
    rw [followB, Bool.and_eq_true, decide_eq_true_eq] at hf
    rcases hf with ⟨rfl, hrest⟩
    cases hl : lookupH h i with
    | none => rw [hl] at hrest; exact absurd hrest (by simp)
    | some m =>
      rw [hl] at hrest
      cases k with
      | zero => simp [iterLink]
      | succ k2 =>
        rw [iterLink, hl]
        rw [List.length_cons, Nat.succ_lt_succ_iff] at hk
        rw [List.getElem?_cons_succ]
        exact ih (l m) k2 hrest hk

theorem followB_iterLink_none {h : HeapT α} {l : Node α → Option Nat}
    {ids : List Nat} :
    ∀ cur k, followB h l cur ids none = true → ids.length ≤ k →
      iterLink h l cur k = none := by
  induction ids with
  | nil =>
    intro cur k hf _
    rw [followB, decide_eq_true_eq] at hf
    subst hf
    cases k <;> rfl
  | cons i t ih =>
    intro cur k hf hk
    rw [followB, Bool.and_eq_true, decide_eq_true_eq] at hf
    rcases hf with ⟨rfl, hrest⟩
    cases hl : lookupH h i with
    | none => rw [hl] at hrest; exact absurd hrest (by simp)
    | some m =>
      rw [hl] at hrest
      cases k with
      | zero => simp at hk
      | succ k2 =>
        rw [iterLink, hl]
        rw [List.length_cons, Nat.succ_le_succ_iff] at hk
        exact ih (l m) k2 hrest hk

theorem followB_link_targets {h : HeapT α} {l : Node α → Option Nat}
    {ids : List Nat} {e : Option Nat} :
    ∀ cur, followB h l cur ids e = true →
      ∀ j ∈ ids, ∀ nd, lookupH h j = some nd →
        l nd = e ∨ ∃ k2 ∈ ids.drop 1, l nd = some k2 := by
  induction ids with
  | nil => intro cur _ j hj; simp at hj
  | cons i t ih =>
    intro cur hf j hj nd hnd
    rw [followB, Bool.and_eq_true] at hf
    rcases hf with ⟨_, hrest⟩
    cases hl : lookupH h i with
    | none => rw [hl] at hrest; exact absurd hrest (by simp)
    | some m =>
      rw [hl] at hrest
      rcases List.mem_cons.mp hj with rfl | hj
      · have hmnd : nd = m := by rw [hl] at hnd; exact (Option.some_inj.mp hnd).symm
        subst hmnd
        cases t with
        | nil =>
          have hend : followB h l (l nd) [] e = true := hrest
          rw [followB, decide_eq_true_eq] at hend
          exact Or.inl hend
        | cons b t2 =>
          have hstep : followB h l (l nd) (b :: t2) e = true := hrest
          rw [followB, Bool.and_eq_true, decide_eq_true_eq] at hstep
          exact Or.inr ⟨b, by simp, hstep.1⟩
      · rcases ih (l m) hrest j hj nd hnd with hcase | ⟨k2, hk2, he⟩
        · exact Or.inl hcase
        · exact Or.inr ⟨k2, by simpa using List.drop_subset 1 t hk2, he⟩

theorem chainData_congr {h1 h2 : HeapT α} {ids : List Nat}
    (hc : ∀ j ∈ ids, (lookupH h1 j).map (·.data) = (lookupH h2 j).map (·.data)) :
    chainData h1 ids = chainData h2 ids := by
  induction ids with
  | nil => rfl
  | cons i t ih =>
    rw [chainData, List.filterMap_cons]
    rw [chainData, List.filterMap_cons]
    rw [hc i (List.mem_cons_self i t)]
    have hrec := ih fun j hj => hc j (List.mem_cons_of_mem i hj)
    rw [chainData, chainData] at hrec
    rw [hrec]

theorem chainData_cons_of_lookup {h : HeapT α} {i : Nat} {n : Node α}
    (hl : lookupH h i = some n) (ids : List Nat) :
    chainData h (i :: ids) = n.data :: chainData h ids := by
  rw [chainData, List.filterMap_cons, hl]
  rfl

theorem ids_subset_heapKeys {h : HeapT α} {l : Node α → Option Nat}
    {ids : List Nat} {cur e : Option Nat}
    (hf : followB h l cur ids e = true) : ∀ j ∈ ids, j ∈ heapKeys h := by
  intro j hj
  rcases followB_lookup_some cur hf j hj with ⟨n, hn⟩
  exact mem_heapKeys_of_lookup hn

theorem ids_length_le_heap {h : HeapT α} {l : Node α → Option Nat}
    {ids : List Nat} {cur e : Option Nat}
    (hf : followB h l cur ids e = true) (hnd : ids.Nodup) :
    ids.length ≤ h.length := by
  have hsub : ids ⊆ heapKeys h := fun j hj => ids_subset_heapKeys hf j hj
  calc ids.length ≤ (heapKeys h).length :=
        (List.subperm_of_subset hnd hsub).length_le
    _ = h.length := heapKeys_length h

end ChainLemmas

section MapFieldLemmas

variable {α : Type}

theorem map_data_updNext (h : HeapT α) (i : Nat) (v : Option Nat) (j : Nat) :
    (lookupH (updNext h i v) j).map (·.data) = (lookupH h j).map (·.data) := by
  by_cases hj : j = i
  · subst hj
    rw [lookupH_updNext_self]
    cases lookupH h j <;> rfl
  · rw [lookupH_updNext_ne h v hj]

theorem map_prev_updNext (h : HeapT α) (i : Nat) (v : Option Nat) (j : Nat) :
    (lookupH (updNext h i v) j).map (·.prev) = (lookupH h j).map (·.prev) := by
  by_cases hj : j = i
  · subst hj
    rw [lookupH_updNext_self]
    cases lookupH h j <;> rfl
  · rw [lookupH_updNext_ne h v hj]

theorem map_data_updPrev (h : HeapT α) (i : Nat) (v : Option Nat) (j : Nat) :
    (lookupH (updPrev h i v) j).map (·.data) = (lookupH h j).map (·.data) := by
  by_cases hj : j = i
  · subst hj
    rw [lookupH_updPrev_self]
    cases lookupH h j <;> rfl
  · rw [lookupH_updPrev_ne h v hj]

theorem map_next_updPrev (h : HeapT α) (i : Nat) (v : Option Nat) (j : Nat) :
    (lookupH (updPrev h i v) j).map (·.next) = (lookupH h j).map (·.next) := by
  by_cases hj : j = i
  · subst hj
    rw [lookupH_updPrev_self]
    cases lookupH h j <;> rfl
  · rw [lookupH_updPrev_ne h v hj]

end MapFieldLemmas

section PushLemmas

variable {α : Type}

theorem followB_nil_end {h : HeapT α} {l : Node α → Option Nat}
    {cur e : Option Nat} (hf : followB h l cur [] e = true) : cur = e := by
  rw [followB, decide_eq_true_eq] at hf
  exact hf

theorem ids_eq_nil_of_tail_none {s : LState α} {ids : List Nat}
    (hprev : followB s.heap (fun n => n.prev) s.tail ids.reverse none = true)
    (ht : s.tail = none) : ids = [] := by
  cases hrev : ids.reverse with
  | nil => simpa using congrArg List.reverse hrev
  | cons j r =>
    rw [hrev, ht, followB, Bool.and_eq_true, decide_eq_true_eq] at hprev
    exact absurd hprev.1 (by simp)

theorem tail_eq_getLast {s : LState α} {L : List Nat} {y : Nat}
    (hprev : followB s.heap (fun n => n.prev) s.tail (L ++ [y]).reverse none = true) :
    s.tail = some y := by
  rw [List.reverse_append, List.reverse_singleton, List.singleton_append,
    followB, Bool.and_eq_true, decide_eq_true_eq] at hprev
  exact hprev.1

theorem push_front_spec_none {s : LState α} (v : α) (ht : s.tail = none) :
    UnsafeLinkedList.push_front s v =
      { heap := (s.fresh, ⟨v, none, none⟩) :: s.heap, head := some s.fresh,
        tail := some s.fresh, len := s.len + 1, fresh := s.fresh + 1 } := by
  rw [UnsafeLinkedList.push_front]
  simp only [ht]

theorem push_front_spec_some {s : LState α} (v : α) {t : Nat}
    (ht : s.tail = some t) (hne : t ≠ s.fresh) :
    UnsafeLinkedList.push_front s v =
      { heap := (s.fresh, ⟨v, some t, none⟩) :: updNext s.heap t (some s.fresh),
        head := s.head, tail := some s.fresh, len := s.len + 1,
        fresh := s.fresh + 1 } := by
  rw [UnsafeLinkedList.push_front]
  have hne2 : ¬(s.fresh = t) := fun hp => hne hp.symm
  simp only [ht, setNext, updNext, if_neg hne2]

theorem push_back_spec_none {s : LState α} (v : α) (hh : s.head = none) :
    UnsafeLinkedList.push_back s v =
      { heap := (s.fresh, ⟨v, none, none⟩) :: s.heap, head := some s.fresh,
        tail := some s.fresh, len := s.len + 1, fresh := s.fresh + 1 } := by
  rw [UnsafeLinkedList.push_back]
  simp only [hh]

theorem push_back_spec_some {s : LState α} (v : α) {t : Nat}
    (hh : s.head = some t) (hne : t ≠ s.fresh) :
    UnsafeLinkedList.push_back s v =
      { heap := (s.fresh, ⟨v, none, some t⟩) :: updPrev s.heap t (some s.fresh),
        head := some s.fresh, tail := s.tail, len := s.len + 1,
        fresh := s.fresh + 1 } := by
  rw [UnsafeLinkedList.push_back]
  have hne2 : ¬(s.fresh = t) := fun hp => hne hp.symm
  simp only [hh, setPrev, updPrev, if_neg hne2]

theorem heapKeys_eq_nil_of_sub_nil {h : HeapT α}
    (hk : ∀ k ∈ heapKeys h, k ∈ ([] : List Nat)) : heapKeys h = [] := by
  cases hh : heapKeys h with
  | nil => rfl
  | cons a r => exact absurd (hk a (by rw [hh]; simp)) (by simp)

theorem push_front_repInv {s : LState α} {ids : List Nat}
    (hr : RepInv s ids) (v : α) :
    RepInv (UnsafeLinkedList.push_front s v) (ids ++ [s.fresh]) := by
  obtain ⟨hnext, hprev, hlen, hnd, hkeys, hknd, hfr⟩ := hr
  cases ht : s.tail with
  | none =>
    have hids : ids = [] := ids_eq_nil_of_tail_none hprev ht
    subst hids
    have hk0 : heapKeys s.heap = [] := heapKeys_eq_nil_of_sub_nil hkeys
    rw [push_front_spec_none v ht]
    refine ⟨?_, ?_, ?_, ?_, ?_, ?_, ?_⟩
    · simp [followB, lookupH]
    · simp [followB, lookupH]
    · simp [hlen]
    · simp
    · intro k hk
      rw [heapKeys, hk0] at hk
      simpa using hk
    · rw [heapKeys, hk0]
      simp
    · intro k hk
      rw [heapKeys, hk0] at hk
      simp at hk ⊢
      omega
  | some t =>
    have hne2 : ids ≠ [] := by
      intro hc
      subst hc
      have := followB_nil_end hprev
      rw [ht] at this
      simp at this
    obtain ⟨L, y, hLy⟩ : ∃ L y, ids = L ++ [y] :=
      ⟨ids.dropLast, ids.getLast hne2, (List.dropLast_append_getLast hne2).symm⟩
    have hty : t = y := by
      have := @tail_eq_getLast _ s L y (by rw [← hLy]; exact hprev)
      rw [ht] at this
      exact Option.some_inj.mp this
    subst hty
    -- membership and freshness facts
    have hidsub : ∀ j ∈ ids, j ∈ heapKeys s.heap := ids_subset_heapKeys hnext
    have hfresh_not : s.fresh ∉ ids := by
      intro hc
      exact absurd (hfr s.fresh (hidsub s.fresh hc)) (by omega)
    have htids : t ∈ ids := by rw [hLy]; simp
    have htfresh : t ≠ s.fresh := by
      intro hc
      apply hfresh_not
      rw [← hc]
      exact htids
    have hynotL : t ∉ L := by
      have hnd2 : (L ++ [t]).Nodup := by rw [← hLy]; exact hnd
      rcases List.nodup_append.mp hnd2 with ⟨_, _, hdisj⟩
      intro hc
      exact hdisj hc (List.mem_singleton_self t)
    rw [push_front_spec_some v ht htfresh]
    -- notation for the new heap
    set u := updNext s.heap t (some s.fresh) with hu
    set h2 : HeapT α := (s.fresh, ⟨v, some t, none⟩) :: u with hh2
    have hlook_ne : ∀ j, j ≠ s.fresh → lookupH h2 j = lookupH u j := by
      intro j hj
      rw [hh2, lookupH, if_neg (fun hp => hj hp.symm)]
    have hlook_new : lookupH h2 s.fresh = some ⟨v, some t, none⟩ := by
      rw [hh2, lookupH, if_pos rfl]
    have hmemfresh : ∀ j ∈ ids, j ≠ s.fresh := by
      intro j hj hc
      exact hfresh_not (hc ▸ hj)
    -- lookups of old ids in the new heap agree with the old heap on data and prev
    have hcong_prev : ∀ j ∈ ids,
        (lookupH s.heap j).map (·.prev) = (lookupH h2 j).map (·.prev) := by
      intro j hj
      rw [hlook_ne j (hmemfresh j hj), hu, map_prev_updNext]
    -- next-chain of L transfers unchanged (t ∉ L, fresh ∉ L)
    have hnextL : followB h2 (fun n => n.next) s.head L (some t) = true := by
      have hcong : ∀ j ∈ L,
          (lookupH s.heap j).map (·.next) = (lookupH h2 j).map (·.next) := by
        intro j hj
        have hjids : j ∈ ids := by rw [hLy]; exact List.mem_append_left _ hj
        have hjt : j ≠ t := fun hc => hynotL (by rw [← hc]; exact hj)
        rw [hlook_ne j (hmemfresh j hjids), hu,
          lookupH_updNext_ne s.heap (some s.fresh) hjt]
      have hL : followB s.heap (fun n => n.next) s.head L (some t) = true := by
        rw [hLy] at hnext
        rcases followB_unsnoc s.head hnext with ⟨n, _, _, hfol⟩
        exact hfol
      rw [← followB_congr hcong s.head (some t)]
      exact hL
    -- old tail node
    obtain ⟨n, hnlook, hnnext, _⟩ : ∃ n, lookupH s.heap t = some n ∧
        n.next = none ∧ followB s.heap (fun n => n.next) s.head L (some t) = true := by
      rw [hLy] at hnext
      exact followB_unsnoc s.head hnext
    have hlook_t : lookupH h2 t = some { n with next := some s.fresh } := by
      rw [hlook_ne t htfresh, hu, lookupH_updNext_self, hnlook]
      rfl
    refine ⟨?_, ?_, ?_, ?_, ?_, ?_, ?_⟩
    · -- next chain of (L ++ [t]) ++ [fresh]
      have h1 := followB_snoc hlook_t s.head hnextL
      have h2s := followB_snoc hlook_new s.head (by simpa using h1)
      simpa [hLy] using h2s
    · -- prev chain: fresh :: ids.reverse
      have htrans : followB h2 (fun n => n.prev) (some t) ids.reverse none = true := by
        rw [← followB_congr (fun j hj => hcong_prev j (by simpa using hj)) (some t) none]
        rw [← ht]
        exact hprev
      rw [List.reverse_append, List.reverse_singleton, List.singleton_append,
        followB, Bool.and_eq_true, hlook_new]
      exact ⟨by simp, htrans⟩
    · simp [hlen]
    · rw [List.nodup_append]
      exact ⟨hnd, by simp, by intro a ha hb; simp at hb; exact hmemfresh a ha hb⟩
    · intro k hk
      rw [hh2, heapKeys] at hk
      rcases List.mem_cons.mp hk with rfl | hk
      · simp
      · rw [hu, heapKeys_updNext] at hk
        exact List.mem_append_left _ (hkeys k hk)
    · rw [hh2, heapKeys, hu, heapKeys_updNext, List.nodup_cons]
      refine ⟨?_, hknd⟩
      intro hc
      exact absurd (hfr s.fresh hc) (by omega)
    · intro k hk
      rw [hh2, heapKeys] at hk
      rcases List.mem_cons.mp hk with rfl | hk
      · simp
      · rw [hu, heapKeys_updNext] at hk
        have := hfr k hk
        simp
        omega

end PushLemmas

section PushBackLemmas

variable {α : Type}

theorem ids_eq_nil_of_head_none {s : LState α} {ids : List Nat}
    (hnext : followB s.heap (fun n => n.next) s.head ids none = true)
    (hh : s.head = none) : ids = [] := by
  cases ids with
  | nil => rfl
  | cons i t =>
    rw [hh, followB, Bool.and_eq_true, decide_eq_true_eq] at hnext
    exact absurd hnext.1 (by simp)

theorem head_eq_first {s : LState α} {i : Nat} {T : List Nat}
    (hnext : followB s.heap (fun n => n.next) s.head (i :: T) none = true) :
    s.head = some i := by
  rw [followB, Bool.and_eq_true, decide_eq_true_eq] at hnext
  exact hnext.1

theorem push_back_repInv {s : LState α} {ids : List Nat}
    (hr : RepInv s ids) (v : α) :
    RepInv (UnsafeLinkedList.push_back s v) (s.fresh :: ids) := by
  obtain ⟨hnext, hprev, hlen, hnd, hkeys, hknd, hfr⟩ := hr
  cases hh : s.head with
  | none =>
    have hids : ids = [] := ids_eq_nil_of_head_none hnext hh
    subst hids
    have hk0 : heapKeys s.heap = [] := heapKeys_eq_nil_of_sub_nil hkeys
    rw [push_back_spec_none v hh]
    refine ⟨?_, ?_, ?_, ?_, ?_, ?_, ?_⟩
    · simp [followB, lookupH]
    · simp [followB, lookupH]
    · simp [hlen]
    · simp
    · intro k hk
      rw [heapKeys, hk0] at hk
      simpa using hk
    · rw [heapKeys, hk0]
      simp
    · intro k hk
      rw [heapKeys, hk0] at hk
      simp at hk ⊢
      omega
  | some t =>
    cases hids : ids with
    | nil =>
      rw [hids] at hnext
      have := followB_nil_end hnext
      rw [hh] at this
      simp at this
    | cons i T =>
      subst hids
      have hti : t = i := by
        have := head_eq_first hnext
        rw [hh] at this
        exact Option.some_inj.mp this
      subst hti
      -- membership and freshness facts
      have hidsub : ∀ j ∈ t :: T, j ∈ heapKeys s.heap := ids_subset_heapKeys hnext
      have hfresh_not : s.fresh ∉ t :: T := by
        intro hc
        exact absurd (hfr s.fresh (hidsub s.fresh hc)) (by omega)
      have htfresh : t ≠ s.fresh := by
        intro hc
        apply hfresh_not
        rw [← hc]
        simp
      have htnotT : t ∉ T := (List.nodup_cons.mp hnd).1
      rw [push_back_spec_some v hh htfresh]
      set u := updPrev s.heap t (some s.fresh) with hu
      set h2 : HeapT α := (s.fresh, ⟨v, none, some t⟩) :: u with hh2
      have hlook_ne : ∀ j, j ≠ s.fresh → lookupH h2 j = lookupH u j := by
        intro j hj
        rw [hh2, lookupH, if_neg (fun hp => hj hp.symm)]
      have hlook_new : lookupH h2 s.fresh = some ⟨v, none, some t⟩ := by
        rw [hh2, lookupH, if_pos rfl]
      have hmemfresh : ∀ j ∈ t :: T, j ≠ s.fresh := by
        intro j hj hc
        apply hfresh_not
        rw [← hc]
        exact hj
      -- next-chain transfers unchanged onto the new heap
      have hnext2 : followB h2 (fun n => n.next) s.head (t :: T) none = true := by
        have hcong : ∀ j ∈ t :: T,
            (lookupH s.heap j).map (·.next) = (lookupH h2 j).map (·.next) := by
          intro j hj
          rw [hlook_ne j (hmemfresh j hj), hu, map_next_updPrev]
        rw [← followB_congr hcong s.head none]
        exact hnext
      -- old head node: last visited on the reversed prev chain
      have hprev2 : followB s.heap (fun n => n.prev) s.tail (T.reverse ++ [t]) none
          = true := by
        have hre : (t :: T).reverse = T.reverse ++ [t] := by simp
        rw [← hre]
        exact hprev
      rcases followB_unsnoc s.tail hprev2 with ⟨n, hnlook, hnprev, hfolT⟩
      have hlook_t : lookupH h2 t = some { n with prev := some s.fresh } := by
        rw [hlook_ne t htfresh, hu, lookupH_updPrev_self, hnlook]
        rfl
      refine ⟨?_, ?_, ?_, ?_, ?_, ?_, ?_⟩
      · -- next chain: fresh :: t :: T
        have hstep : followB h2 (fun n => n.next) (some t) (t :: T) none = true := by
          rw [← hh]
          exact hnext2
        rw [followB, Bool.and_eq_true, hlook_new]
        exact ⟨by simp, hstep⟩
      · -- prev chain: (fresh :: t :: T).reverse = (T.reverse ++ [t]) ++ [fresh]
        have hTtrans : followB h2 (fun n => n.prev) s.tail T.reverse (some t)
            = true := by
          have hcong : ∀ j ∈ T.reverse,
              (lookupH s.heap j).map (·.prev) = (lookupH h2 j).map (·.prev) := by
            intro j hj
            have hjT : j ∈ T := by simpa using hj
            have hjids : j ∈ t :: T := List.mem_cons_of_mem _ hjT
            have hjt : j ≠ t := fun hc => htnotT (by rw [← hc]; exact hjT)
            rw [hlook_ne j (hmemfresh j hjids), hu,
              lookupH_updPrev_ne s.heap (some s.fresh) hjt]
          rw [← followB_congr hcong s.tail (some t)]
          exact hfolT
        have h1 := followB_snoc hlook_t s.tail hTtrans
        have h2s := followB_snoc hlook_new s.tail (by simpa using h1)
        have hre : (s.fresh :: t :: T).reverse = (T.reverse ++ [t]) ++ [s.fresh] := by
          simp
        rw [hre]
        simpa using h2s
      · simp [hlen]
      · rw [List.nodup_cons]
        exact ⟨hfresh_not, hnd⟩
      · intro k hk
        rw [hh2, heapKeys] at hk
        rcases List.mem_cons.mp hk with rfl | hk
        · simp
        · rw [hu, heapKeys_updPrev] at hk
          exact List.mem_cons_of_mem _ (hkeys k hk)
      · rw [hh2, heapKeys, hu, heapKeys_updPrev, List.nodup_cons]
        refine ⟨?_, hknd⟩
        intro hc
        exact absurd (hfr s.fresh hc) (by omega)
      · intro k hk
        rw [hh2, heapKeys] at hk
        rcases List.mem_cons.mp hk with rfl | hk
        · simp
        · rw [hu, heapKeys_updPrev] at hk
          have := hfr k hk
          simp
          omega

end PushBackLemmas

section ChainDataPush

variable {α : Type}

theorem chainData_cons_notmem (h : HeapT α) (p : Nat × Node α) {ids : List Nat}
    (hnot : p.1 ∉ ids) : chainData (p :: h) ids = chainData h ids := by
  apply chainData_congr
  intro j hj
  have hne : ¬(p.1 = j) := fun hc => hnot (by rw [hc]; exact hj)
  rw [lookupH, if_neg hne]

theorem chainData_updNext (h : HeapT α) (i : Nat) (v : Option Nat)
    (ids : List Nat) : chainData (updNext h i v) ids = chainData h ids := by
  apply chainData_congr
  intro j _
  rw [map_data_updNext]

theorem chainData_updPrev (h : HeapT α) (i : Nat) (v : Option Nat)
    (ids : List Nat) : chainData (updPrev h i v) ids = chainData h ids := by
  apply chainData_congr
  intro j _
  rw [map_data_updPrev]

theorem fresh_not_mem_ids {s : LState α} {ids : List Nat}
    (hr : RepInv s ids) : s.fresh ∉ ids := by
  obtain ⟨hnext, _, _, _, _, _, hfr⟩ := hr
  intro hc
  exact absurd (hfr s.fresh (ids_subset_heapKeys hnext s.fresh hc)) (by omega)

theorem push_front_chainData {s : LState α} {ids : List Nat}
    (hr : RepInv s ids) (v : α) :
    chainData (UnsafeLinkedList.push_front s v).heap (ids ++ [s.fresh]) =
      chainData s.heap ids ++ [v] := by
  have hfresh_not : s.fresh ∉ ids := fresh_not_mem_ids hr
  obtain ⟨hnext, hprev, hlen, hnd, hkeys, hknd, hfr⟩ := hr
  cases ht : s.tail with
  | none =>
    have hids : ids = [] := ids_eq_nil_of_tail_none hprev ht
    subst hids
    rw [push_front_spec_none v ht]
    simp [chainData, lookupH]
  | some t =>
    have htk : t ∈ heapKeys s.heap := by
      have hne2 : ids ≠ [] := by
        intro hc
        subst hc
        have := followB_nil_end hprev
        rw [ht] at this
        simp at this
      obtain ⟨L, y, hLy⟩ : ∃ L y, ids = L ++ [y] :=
        ⟨ids.dropLast, ids.getLast hne2, (List.dropLast_append_getLast hne2).symm⟩
      have hty : t = y := by
        have := @tail_eq_getLast _ s L y (by rw [← hLy]; exact hprev)
        rw [ht] at this
        exact Option.some_inj.mp this
      subst hty
      exact ids_subset_heapKeys hnext t (by rw [hLy]; simp)
    have htfresh : t ≠ s.fresh := by
      intro hc
      exact absurd (hfr t htk) (by omega)
    rw [push_front_spec_some v ht htfresh]
    rw [chainData, List.filterMap_append, ← chainData, ← chainData]
    rw [chainData_cons_notmem _ _ hfresh_not, chainData_updNext]
    have hlast : chainData
        ((s.fresh, (⟨v, some t, none⟩ : Node α)) :: updNext s.heap t (some s.fresh))
        [s.fresh] = [v] := by
      simp [chainData, lookupH]
    rw [hlast]

theorem push_back_chainData {s : LState α} {ids : List Nat}
    (hr : RepInv s ids) (v : α) :
    chainData (UnsafeLinkedList.push_back s v).heap (s.fresh :: ids) =
      v :: chainData s.heap ids := by
  have hfresh_not : s.fresh ∉ ids := fresh_not_mem_ids hr
  obtain ⟨hnext, hprev, hlen, hnd, hkeys, hknd, hfr⟩ := hr
  cases hh : s.head with
  | none =>
    have hids : ids = [] := ids_eq_nil_of_head_none hnext hh
    subst hids
    rw [push_back_spec_none v hh]
    simp [chainData, lookupH]
  | some t =>
    have htk : t ∈ heapKeys s.heap := by
      cases hids : ids with
      | nil =>
        rw [hids] at hnext
        have := followB_nil_end hnext
        rw [hh] at this
        simp at this
      | cons i T =>
        have hti : t = i := by
          rw [hids] at hnext
          have := head_eq_first hnext
          rw [hh] at this
          exact Option.some_inj.mp this
        subst hti
        exact ids_subset_heapKeys hnext t (by rw [hids]; simp)
    have htfresh : t ≠ s.fresh := by
      intro hc
      exact absurd (hfr t htk) (by omega)
    rw [push_back_spec_some v hh htfresh]
    have hfirst : lookupH
        ((s.fresh, (⟨v, none, some t⟩ : Node α)) :: updPrev s.heap t (some s.fresh))
        s.fresh = some ⟨v, none, some t⟩ := by
      rw [lookupH, if_pos rfl]
    rw [chainData_cons_of_lookup hfirst]
    rw [chainData_cons_notmem _ _ hfresh_not, chainData_updPrev]

end ChainDataPush

section SafePushEq

variable {α : Type}

theorem tail_mem_keys {s : LState α} {ids : List Nat} (hr : RepInv s ids) :
    ∀ t, s.tail = some t → t ∈ heapKeys s.heap := by
  obtain ⟨hnext, hprev, _, _, _, _, _⟩ := hr
  intro t ht
  cases hrev : ids.reverse with
  | nil =>
    rw [hrev] at hprev
    have := followB_nil_end hprev
    rw [ht] at this
    simp at this
  | cons j r =>
    rw [hrev] at hprev
    rw [followB, Bool.and_eq_true, decide_eq_true_eq] at hprev
    rcases hprev with ⟨hj, hrest⟩
    rw [ht] at hj
    cases hl : lookupH s.heap j with
    | none => rw [hl] at hrest; exact absurd hrest (by simp)
    | some n =>
      rw [Option.some_inj.mp hj]
      exact mem_heapKeys_of_lookup hl

theorem head_mem_keys {s : LState α} {ids : List Nat} (hr : RepInv s ids) :
    ∀ t, s.head = some t → t ∈ heapKeys s.heap := by
  obtain ⟨hnext, _, _, _, _, _, _⟩ := hr
  intro t ht
  cases hids : ids with
  | nil =>
    rw [hids] at hnext
    have := followB_nil_end hnext
    rw [ht] at this
    simp at this
  | cons i T =>
    rw [hids] at hnext
    rw [followB, Bool.and_eq_true, decide_eq_true_eq] at hnext
    rcases hnext with ⟨hi, hrest⟩
    rw [ht] at hi
    cases hl : lookupH s.heap i with
    | none => rw [hl] at hrest; exact absurd hrest (by simp)
    | some n =>
      rw [Option.some_inj.mp hi]
      exact mem_heapKeys_of_lookup hl

theorem fresh_not_mem_keys {s : LState α} (hf : FreshInv s) :
    s.fresh ∉ heapKeys s.heap := by
  intro hc
  exact absurd (hf s.fresh hc) (by omega)

theorem safe_push_front_eq {s : LState α} (v : α) (hf : FreshInv s)
    (htk : ∀ t, s.tail = some t → t ∈ heapKeys s.heap) :
    SafeLinkedList.push_front s v = UnsafeLinkedList.push_front s v := by
  cases ht : s.tail with
  | none =>
    rw [push_front_spec_none v ht, SafeLinkedList.push_front]
    simp only [ht]
  | some t =>
    have htmem : t ∈ heapKeys s.heap := htk t ht
    have htfresh : t ≠ s.fresh := by
      intro hc
      exact absurd (hf t htmem) (by omega)
    rw [push_front_spec_some v ht htfresh, SafeLinkedList.push_front]
    have hrw : updPrev s.heap s.fresh (some t) = s.heap :=
      updPrev_eq_of_not_mem _ (fresh_not_mem_keys hf)
    have hne : ¬(s.fresh = t) := fun hp => htfresh hp.symm
    simp [ht, setPrev, setNext, updPrev, updNext, hrw, hne]

theorem safe_push_back_eq {s : LState α} (v : α) (hf : FreshInv s)
    (hhk : ∀ t, s.head = some t → t ∈ heapKeys s.heap) :
    SafeLinkedList.push_back s v = UnsafeLinkedList.push_back s v := by
  cases hh : s.head with
  | none =>
    rw [push_back_spec_none v hh, SafeLinkedList.push_back]
    simp only [hh]
  | some t =>
    have htmem : t ∈ heapKeys s.heap := hhk t hh
    have htfresh : t ≠ s.fresh := by
      intro hc
      exact absurd (hf t htmem) (by omega)
    rw [push_back_spec_some v hh htfresh, SafeLinkedList.push_back]
    have hrw : updNext (updPrev s.heap t (some s.fresh)) s.fresh (some t) =
        updPrev s.heap t (some s.fresh) := by
      apply updNext_eq_of_not_mem
      rw [heapKeys_updPrev]
      exact fresh_not_mem_keys hf
    have hne : ¬(s.fresh = t) := fun hp => htfresh hp.symm
    simp [hh, setPrev, setNext, updPrev, updNext, hrw, hne]

end SafePushEq

section DrainUnsafe

variable {α : Type}

theorem repInv_repNexts {s : LState α} {ids : List Nat} (hr : RepInv s ids) :
    RepNexts s ids :=
  ⟨hr.1, hr.2.2.2.1, hr.2.2.1⟩

theorem unsafe_pop_back_step {s : LState α} {oh : Nat} {ids : List Nat}
    (hr : RepNexts s (oh :: ids)) :
    ∃ n, lookupH s.heap oh = some n ∧
      UnsafeLinkedList.pop_back s = some (some n.data,
        { s with heap := removeH s.heap oh, head := n.next, len := s.len - 1 }) ∧
      RepNexts { s with heap := removeH s.heap oh, head := n.next, len := s.len - 1 } ids ∧
      chainData (removeH s.heap oh) ids = chainData s.heap ids := by
  obtain ⟨hnext, hnd, hlen⟩ := hr
  rw [followB, Bool.and_eq_true, decide_eq_true_eq] at hnext
  rcases hnext with ⟨hhead, hrest⟩
  cases hl : lookupH s.heap oh with
  | none => rw [hl] at hrest; exact absurd hrest (by simp)
  | some n =>
    rw [hl] at hrest
    have hohni : oh ∉ ids := (List.nodup_cons.mp hnd).1
    have hlookeq : ∀ j ∈ ids, lookupH (removeH s.heap oh) j = lookupH s.heap j := by
      intro j hj
      exact lookupH_removeH_ne s.heap (fun hc => hohni (by rw [← hc]; exact hj))
    refine ⟨n, rfl, ?_, ⟨?_, (List.nodup_cons.mp hnd).2, by simp [hlen]⟩, ?_⟩
    · simp only [UnsafeLinkedList.pop_back, hhead, hl]
    · have hcong : ∀ j ∈ ids, (lookupH s.heap j).map (·.next) =
          (lookupH (removeH s.heap oh) j).map (·.next) := by
        intro j hj
        rw [hlookeq j hj]
      rw [← followB_congr hcong n.next none]
      exact hrest
    · exact chainData_congr fun j hj => by rw [hlookeq j hj]

theorem unsafe_drain_spec :
    ∀ (ids : List Nat) (s : LState α), RepNexts s ids →
      ∃ s2, UnsafeLinkedList.drain ids.length s = (chainData s.heap ids, s2) ∧
        s2.head = none ∧ UnsafeLinkedList.pop_back s2 = some (none, s2) := by
  intro ids
  induction ids with
  | nil =>
    intro s hr
    have hhead : s.head = none := followB_nil_end hr.1
    refine ⟨s, by simp [UnsafeLinkedList.drain, chainData], hhead, ?_⟩
    rw [UnsafeLinkedList.pop_back, hhead]
  | cons oh ids ih =>
    intro s hr
    rcases unsafe_pop_back_step hr with ⟨n, hl, hpop, hrep, hdata⟩
    rcases ih _ hrep with ⟨s2, hdrain, hh2, hp2⟩
    refine ⟨s2, ?_, hh2, hp2⟩
    rw [List.length_cons]
    simp only [UnsafeLinkedList.drain, hpop, hdrain]
    rw [chainData_cons_of_lookup hl, hdata]

end DrainUnsafe

section DrainSafe

variable {α : Type}

theorem filter_next_nil {h : HeapT α} {oh : Nat}
    (hall : ∀ p ∈ h, ¬(p.2.next = some oh)) :
    (h.filter fun p => decide (p.2.next = some oh)) = [] := by
  rw [List.filter_eq_nil_iff]
  intro p hp
  simpa using hall p hp

theorem safe_pop_back_step {s : LState α} {oh : Nat} {ids : List Nat}
    (hr : RepInv s (oh :: ids)) :
    ∃ n s2, lookupH s.heap oh = some n ∧
      SafeLinkedList.pop_back s = some (some n.data, s2) ∧
      RepInv s2 ids ∧ chainData s2.heap ids = chainData s.heap ids := by
  obtain ⟨hnext, hprev, hlen, hnd, hkeys, hknd, hfr⟩ := hr
  have hnextfull := hnext
  rw [followB, Bool.and_eq_true, decide_eq_true_eq] at hnext
  rcases hnext with ⟨hhead, hrest⟩
  have hohni : oh ∉ ids := (List.nodup_cons.mp hnd).1
  have hndids : ids.Nodup := (List.nodup_cons.mp hnd).2
  cases hl : lookupH s.heap oh with
  | none => rw [hl] at hrest; exact absurd hrest (by simp)
  | some n =>
    rw [hl] at hrest
    have hrest2 : followB s.heap (fun x => x.next) n.next ids none = true := hrest
    -- link targets of the full chain never point back at the old head
    have hnotarget : ∀ p ∈ s.heap, ¬(p.2.next = some oh) := by
      intro p hp hc
      have hpm : p.1 ∈ oh :: ids := hkeys p.1 (mem_heapKeys_of_mem hp)
      have hplook : lookupH s.heap p.1 = some p.2 := lookup_of_mem_nodupKeys hknd hp
      rcases followB_link_targets s.head hnextfull p.1 hpm p.2 hplook with he | ⟨k2, hk2, he⟩
      · rw [hc] at he; simp at he
      · rw [hc] at he
        have : oh ∈ ids := by
          rw [Option.some_inj.mp he]
          simpa using hk2
        exact hohni this
    cases hidseq : ids with
    | nil =>
      subst hidseq
      have hlen1 : s.len = 1 := by simpa using hlen
      have hnnext : n.next = none := followB_nil_end hrest2
      have hkeyoh : ∀ k ∈ heapKeys s.heap, k = oh := by
        intro k hk
        simpa using hkeys k hk
      have hsr : SafeLinkedList.strongRefs { heap := updNext s.heap oh none, head := none, tail := none, len := s.len - 1, fresh := s.fresh } oh = 0 := by
        rw [SafeLinkedList.strongRefs]
        have hfil : ((updNext s.heap oh none).filter
            fun p => decide (p.2.next = some oh)) = [] := by
          apply filter_next_nil
          intro p hp hc
          rcases mem_updNext hp with ⟨q, hq, _, hnx⟩
          by_cases hqoh : q.1 = oh
          · rw [if_pos hqoh] at hnx
            rw [hnx] at hc
            simp at hc
          · exact hqoh (hkeyoh q.1 (mem_heapKeys_of_mem hq))
        simp [hfil]
      have hlook2 : lookupH (updNext s.heap oh none) oh =
          some { n with next := none } := by
        rw [lookupH_updNext_self, hl]
        rfl
      refine ⟨n, { heap := removeH (updNext s.heap oh none) oh, head := none, tail := none, len := s.len - 1, fresh := s.fresh }, rfl, ?_, ?_, by simp [chainData]⟩
      · simp only [SafeLinkedList.pop_back, if_pos hlen1, hhead, hl, setNext,
          setPrev, hnnext, hsr, hlook2]
        simp
      · refine ⟨by simp [followB], by simp [followB], by simp [hlen1], by simp, ?_, ?_, ?_⟩
        · intro k hk
          rcases mem_heapKeys_removeH hk with ⟨hk1, hk2⟩
          rw [heapKeys_updNext] at hk1
          exact absurd (hkeyoh k hk1) hk2
        · apply heapKeys_removeH_nodup
          rw [heapKeys_updNext]
          exact hknd
        · intro k hk
          rcases mem_heapKeys_removeH hk with ⟨hk1, _⟩
          rw [heapKeys_updNext] at hk1
          exact hfr k hk1
    | cons nh rest =>
      subst hidseq
      have hlen2 : s.len = rest.length + 2 := by simpa using hlen
      have hlenne1 : ¬(s.len = 1) := by omega
      have hohnh : ¬(nh = oh) := by
        intro hc
        exact hohni (by rw [← hc]; simp)
      have hnhrest : nh ∉ rest := (List.nodup_cons.mp hndids).1
      -- decompose the forward chain one more step
      have hchain : followB s.heap (fun x => x.next) n.next (nh :: rest) none =
          true := hrest2
      rw [followB, Bool.and_eq_true, decide_eq_true_eq] at hrest2
      rcases hrest2 with ⟨hnnext, _⟩
      rw [hnnext] at hchain
      -- decompose the reversed chain from the far end
      have hprev2 : followB s.heap (fun x => x.prev) s.tail
          ((rest.reverse ++ [nh]) ++ [oh]) none = true := by
        have hre : (oh :: nh :: rest).reverse = (rest.reverse ++ [nh]) ++ [oh] := by
          simp
        rw [← hre]
        exact hprev
      rcases followB_unsnoc s.tail hprev2 with ⟨n', hln', hn'prev, hprevchain⟩
      rcases followB_unsnoc s.tail hprevchain with ⟨m, hlm, hmprev, hprevrest⟩
      -- the tail points into nh :: rest, hence not at oh
      have htail : ∃ a, s.tail = some a ∧ a ∈ nh :: rest := by
        cases happr : rest.reverse ++ [nh] with
        | nil => exact absurd happr (by simp)
        | cons a L2 =>
          rw [happr, followB, Bool.and_eq_true, decide_eq_true_eq] at hprevchain
          refine ⟨a, hprevchain.1, ?_⟩
          have ham : a ∈ rest.reverse ++ [nh] := by rw [happr]; simp
          rcases List.mem_append.mp ham with ha | ha
          · exact List.mem_cons_of_mem _ (by simpa using ha)
          · simp at ha
            rw [ha]
            simp
      rcases htail with ⟨a, htaila, hamem⟩
      have htailne : ¬(s.tail = some oh) := by
        rw [htaila]
        intro hc
        apply hohni
        rw [← Option.some_inj.mp hc]
        exact hamem
      -- node nh after the two field updates
      have hlmu : lookupH (updPrev (updNext s.heap oh none) nh none) nh =
          some { m with prev := none } := by
        rw [lookupH_updPrev_self,
          lookupH_updNext_ne s.heap none (fun hc => hohnh hc), hlm]
        rfl
      have hloheq : lookupH (updPrev (updNext s.heap oh none) nh none) oh =
          some { n with next := none } := by
        rw [lookupH_updPrev_ne _ none (fun hc => hohnh hc.symm),
          lookupH_updNext_self, hl]
        rfl
      -- strong count of the extracted node is zero
      have hsr : SafeLinkedList.strongRefs { heap := updPrev (updNext s.heap oh none) nh none, head := some nh, tail := s.tail, len := s.len - 1, fresh := s.fresh } oh = 0 := by
        rw [SafeLinkedList.strongRefs]
        have hfil : ((updPrev (updNext s.heap oh none) nh none).filter
            fun p => decide (p.2.next = some oh)) = [] := by
          apply filter_next_nil
          intro p hp hc
          rcases mem_updPrev hp with ⟨q, hq, _, hqnext, _⟩
          rcases mem_updNext hq with ⟨r, hrm, _, hrnext⟩
          by_cases hroh : r.1 = oh
          · rw [if_pos hroh] at hrnext
            rw [hqnext, hrnext] at hc
            simp at hc
          · rw [if_neg hroh] at hrnext
            rw [hqnext, hrnext] at hc
            exact hnotarget r hrm hc
        have hnhoh : ¬(some nh = some oh) := by simpa using hohnh
        simp [hfil, hnhoh, htailne]
      have hremne : ∀ j, j ≠ oh →
          lookupH (removeH (updPrev (updNext s.heap oh none) nh none) oh) j =
          lookupH (updPrev (updNext s.heap oh none) nh none) j := by
        intro j hj
        exact lookupH_removeH_ne _ hj
      refine ⟨n, { heap := removeH (updPrev (updNext s.heap oh none) nh none) oh, head := some nh, tail := s.tail, len := s.len - 1, fresh := s.fresh }, rfl, ?_, ?_, ?_⟩
      · simp only [SafeLinkedList.pop_back, if_neg hlenne1, hhead, hl, setNext,
          setPrev, hnnext, hsr, hloheq]
        simp
      · refine ⟨?_, ?_, ?_, hndids, ?_, ?_, ?_⟩
        · -- next chain from the new head
          show followB (removeH (updPrev (updNext s.heap oh none) nh none) oh) (fun x => x.next) (some nh) (nh :: rest) none = true
          have hcong : ∀ j ∈ nh :: rest,
              (lookupH s.heap j).map (·.next) =
              (lookupH (removeH (updPrev (updNext s.heap oh none) nh none) oh) j).map
                (·.next) := by
            intro j hj
            have hjoh : j ≠ oh := fun hc => hohni (by rw [← hc]; exact hj)
            rw [hremne j hjoh, map_next_updPrev,
              lookupH_updNext_ne s.heap none hjoh]
          rw [← followB_congr hcong (some nh) none]
          exact hchain
        · -- prev chain from the unchanged tail
          show followB (removeH (updPrev (updNext s.heap oh none) nh none) oh) (fun x => x.prev) s.tail (nh :: rest).reverse none = true
          have hcongR : ∀ j ∈ rest.reverse,
              (lookupH s.heap j).map (·.prev) =
              (lookupH (removeH (updPrev (updNext s.heap oh none) nh none) oh) j).map
                (·.prev) := by
            intro j hj
            have hjrest : j ∈ rest := by simpa using hj
            have hjoh : j ≠ oh :=
              fun hc => hohni (by rw [← hc]; exact List.mem_cons_of_mem _ hjrest)
            have hjnh : j ≠ nh := fun hc => hnhrest (by rw [← hc]; exact hjrest)
            rw [hremne j hjoh, lookupH_updPrev_ne _ none hjnh, map_prev_updNext]
          have hpr : followB
              (removeH (updPrev (updNext s.heap oh none) nh none) oh)
              (fun x => x.prev) s.tail rest.reverse (some nh) = true := by
            rw [← followB_congr hcongR s.tail (some nh)]
            exact hprevrest
          have hlmu2 : lookupH
              (removeH (updPrev (updNext s.heap oh none) nh none) oh) nh =
              some { m with prev := none } := by
            rw [hremne nh hohnh, hlmu]
          have hsnoc := followB_snoc hlmu2 s.tail hpr
          simpa using hsnoc
        · simp [hlen2]
        · intro k hk
          rcases mem_heapKeys_removeH hk with ⟨hk1, hk2⟩
          rw [heapKeys_updPrev, heapKeys_updNext] at hk1
          rcases List.mem_cons.mp (hkeys k hk1) with rfl | hmem
          · exact absurd rfl hk2
          · exact hmem
        · apply heapKeys_removeH_nodup
          rw [heapKeys_updPrev, heapKeys_updNext]
          exact hknd
        · intro k hk
          rcases mem_heapKeys_removeH hk with ⟨hk1, _⟩
          rw [heapKeys_updPrev, heapKeys_updNext] at hk1
          exact hfr k hk1
      · -- payloads of the surviving nodes are untouched
        apply chainData_congr
        intro j hj
        have hjoh : j ≠ oh := fun hc => hohni (by rw [← hc]; exact hj)
        rw [lookupH_removeH_ne _ hjoh, map_data_updPrev,
          map_data_updNext]

end DrainSafe

section DrainSafe2

variable {α : Type}

theorem safe_pop_back_empty {s : LState α} (hr : RepInv s []) :
    SafeLinkedList.pop_back s = some (none, s) := by
  obtain ⟨hnext, _, hlen, _, _, _, _⟩ := hr
  have hhead : s.head = none := followB_nil_end hnext
  have hne1 : ¬(s.len = 1) := by simp at hlen; omega
  simp only [SafeLinkedList.pop_back, if_neg hne1, hhead]

theorem safe_drain_spec :
    ∀ (ids : List Nat) (s : LState α), RepInv s ids →
      ∃ s2, SafeLinkedList.drain ids.length s = (chainData s.heap ids, s2) ∧
        RepInv s2 [] ∧ SafeLinkedList.pop_back s2 = some (none, s2) := by
  intro ids
  induction ids with
  | nil =>
    intro s hr
    exact ⟨s, by simp [SafeLinkedList.drain, chainData], hr, safe_pop_back_empty hr⟩
  | cons oh ids ih =>
    intro s hr
    rcases safe_pop_back_step hr with ⟨n, s1, hl, hpop, hrep, hdata⟩
    rcases ih _ hrep with ⟨s2, hdrain, hrep2, hp2⟩
    refine ⟨s2, ?_, hrep2, hp2⟩
    rw [List.length_cons]
    simp only [SafeLinkedList.drain, hpop, hdrain]
    rw [chainData_cons_of_lookup hl, hdata]

theorem safe_pop_front_single {s : LState α} {i : Nat} (hr : RepInv s [i]) :
    ∃ n, lookupH s.heap i = some n ∧
      SafeLinkedList.pop_front s = some (some n.data,
        { heap := removeH (updPrev s.heap i none) i, head := none, tail := none, len := s.len - 1, fresh := s.fresh }) := by
  obtain ⟨hnext, hprev, hlen, hnd, hkeys, hknd, hfr⟩ := hr
  have hlen1 : s.len = 1 := by simpa using hlen
  have hkeyi : ∀ k ∈ heapKeys s.heap, k = i := by
    intro k hk
    simpa using hkeys k hk
  rw [followB, Bool.and_eq_true, decide_eq_true_eq] at hnext
  rcases hnext with ⟨hhead, hrest⟩
  have htail : s.tail = some i := by
    rw [List.reverse_singleton, followB, Bool.and_eq_true, decide_eq_true_eq]
      at hprev
    exact hprev.1
  cases hl : lookupH s.heap i with
  | none => rw [hl] at hrest; exact absurd hrest (by simp)
  | some n =>
    rw [hl] at hrest
    have hnnext : n.next = none := followB_nil_end hrest
    have hnprev : n.prev = none := by
      rw [List.reverse_singleton, followB, Bool.and_eq_true, hl] at hprev
      have hend : followB s.heap (fun x => x.prev) n.prev [] none = true :=
        hprev.2
      exact followB_nil_end hend
    have hlook2 : lookupH (updPrev s.heap i none) i =
        some { n with prev := none } := by
      rw [lookupH_updPrev_self, hl]
      rfl
    have hsr : SafeLinkedList.strongRefs { heap := updPrev s.heap i none, head := none, tail := none, len := s.len - 1, fresh := s.fresh } i = 0 := by
      rw [SafeLinkedList.strongRefs]
      have hfil : ((updPrev s.heap i none).filter
          fun p => decide (p.2.next = some i)) = [] := by
        apply filter_next_nil
        intro p hp hc
        rcases mem_updPrev hp with ⟨q, hq, _, hqnext, _⟩
        have hqi : q.1 = i := hkeyi q.1 (mem_heapKeys_of_mem hq)
        have hql : lookupH s.heap q.1 = some q.2 := lookup_of_mem_nodupKeys hknd hq
        rw [hqi, hl] at hql
        rw [hqnext, Option.some_inj.mp hql.symm] at hc
        rw [hnnext] at hc
        simp at hc
      simp [hfil]
    refine ⟨n, rfl, ?_⟩
    simp only [SafeLinkedList.pop_front, if_pos hlen1, htail, hl, setPrev,
      setNext, hnprev, hsr, hlook2]
    simp

end DrainSafe2

section DisplayLemmas

variable {α : Type}

theorem displayAux_none (h : HeapT α) (f : α → String) (fuel : Nat) :
    displayAux h f fuel none = "" := by
  cases fuel <;> rfl

theorem displayAux_chain {h : HeapT α} {f : α → String} :
    ∀ (ids : List Nat) (cur : Option Nat) (fuel : Nat),
      followB h (fun n => n.next) cur ids none = true → ids.length ≤ fuel →
      displayAux h f fuel cur = commaJoin ((chainData h ids).map f) := by
  intro ids
  induction ids with
  | nil =>
    intro cur fuel hf _
    rw [followB_nil_end hf, displayAux_none]
    rfl
  | cons i t ih =>
    intro cur fuel hf hfuel
    rw [followB, Bool.and_eq_true, decide_eq_true_eq] at hf
    rcases hf with ⟨rfl, hrest⟩
    cases hl : lookupH h i with
    | none => rw [hl] at hrest; exact absurd hrest (by simp)
    | some n =>
      rw [hl] at hrest
      have hrest2 : followB h (fun x => x.next) n.next t none = true := hrest
      cases fuel with
      | zero => simp at hfuel
      | succ f2 =>
        have hf2 : t.length ≤ f2 := by
          rw [List.length_cons] at hfuel
          omega
        simp only [displayAux, hl]
        rw [chainData_cons_of_lookup hl]
        cases t with
        | nil =>
          have hnone : n.next = none := followB_nil_end hrest2
          rw [hnone, displayAux_none]
          simp [chainData, commaJoin]
        | cons b t2 =>
          have hb : n.next = some b := by
            rw [followB, Bool.and_eq_true, decide_eq_true_eq] at hrest2
            exact hrest2.1
          rcases followB_lookup_some n.next hrest2 b (by simp) with ⟨m, hm⟩
          rw [ih n.next f2 hrest2 hf2]
          rw [chainData_cons_of_lookup hm]
          rw [hb]
          simp only [Option.isSome_some, if_pos, List.map_cons, commaJoin]

theorem displayString_spec {s : LState α} {ids : List Nat}
    (hchain : followB s.heap (fun n => n.next) s.head ids none = true)
    (hnd : ids.Nodup) (f : α → String) :
    displayString f s = "[" ++ commaJoin ((chainData s.heap ids).map f) ++ "]" := by
  rw [displayString, displayAux_chain ids s.head s.heap.length hchain
    (ids_length_le_heap hchain hnd)]

end DisplayLemmas

section BuildLemmas

variable {α : Type}

theorem repInv_new : RepInv (UnsafeLinkedList.new : LState α) [] := by
  refine ⟨by simp [followB, UnsafeLinkedList.new], by simp [followB, UnsafeLinkedList.new], rfl, List.nodup_nil, ?_, ?_, ?_⟩
  · intro k hk
    simp [UnsafeLinkedList.new, heapKeys] at hk
  · simp [UnsafeLinkedList.new, heapKeys]
  · intro k hk
    simp [UnsafeLinkedList.new, heapKeys] at hk

theorem safe_new_eq : (SafeLinkedList.new : LState α) = UnsafeLinkedList.new := rfl

theorem buildFromU_repInv :
    ∀ (ops : List (PushOp α)) (s : LState α) (ids : List Nat), RepInv s ids →
      ∃ ids2, RepInv (buildFromU s ops) ids2 := by
  intro ops
  induction ops with
  | nil => intro s ids hr; exact ⟨ids, hr⟩
  | cons op rest ih =>
    intro s ids hr
    cases op with
    | front v => exact ih _ _ (push_front_repInv hr v)
    | back v => exact ih _ _ (push_back_repInv hr v)

theorem buildFromS_eq :
    ∀ (ops : List (PushOp α)) (s : LState α) (ids : List Nat), RepInv s ids →
      buildFromS s ops = buildFromU s ops := by
  intro ops
  induction ops with
  | nil => intro s ids _; rfl
  | cons op rest ih =>
    intro s ids hr
    cases op with
    | front v =>
      have hstep : SafeLinkedList.push_front s v = UnsafeLinkedList.push_front s v :=
        safe_push_front_eq v hr.2.2.2.2.2.2 (tail_mem_keys hr)
      show buildFromS (SafeLinkedList.push_front s v) rest =
        buildFromU (UnsafeLinkedList.push_front s v) rest
      rw [hstep]
      exact ih _ _ (push_front_repInv hr v)
    | back v =>
      have hstep : SafeLinkedList.push_back s v = UnsafeLinkedList.push_back s v :=
        safe_push_back_eq v hr.2.2.2.2.2.2 (head_mem_keys hr)
      show buildFromS (SafeLinkedList.push_back s v) rest =
        buildFromU (UnsafeLinkedList.push_back s v) rest
      rw [hstep]
      exact ih _ _ (push_back_repInv hr v)

theorem foldl_push_front_rep :
    ∀ (vs : List α) (s : LState α) (ids : List Nat), RepInv s ids →
      ∃ ids2, RepInv (vs.foldl UnsafeLinkedList.push_front s) ids2 ∧
        chainData (vs.foldl UnsafeLinkedList.push_front s).heap ids2 =
          chainData s.heap ids ++ vs := by
  intro vs
  induction vs with
  | nil => intro s ids hr; exact ⟨ids, hr, by simp⟩
  | cons v rest ih =>
    intro s ids hr
    rcases ih (UnsafeLinkedList.push_front s v) (ids ++ [s.fresh])
      (push_front_repInv hr v) with ⟨ids2, hrep2, hdata2⟩
    refine ⟨ids2, hrep2, ?_⟩
    rw [List.foldl_cons, hdata2, push_front_chainData hr v]
    simp

theorem linked_list_spec (vs : List α) :
    ∃ ids, RepInv (linked_list vs) ids ∧
      chainData (linked_list vs).heap ids = vs := by
  rcases foldl_push_front_rep vs UnsafeLinkedList.new [] repInv_new with ⟨ids, hr, hd⟩
  refine ⟨ids, hr, ?_⟩
  show chainData (vs.foldl UnsafeLinkedList.push_front UnsafeLinkedList.new).heap ids = vs
  rw [hd]
  simp [chainData, UnsafeLinkedList.new]

end BuildLemmas

section NthLemmas

variable {α : Type}

theorem headTraverse_out_of_range {s : LState α} {ids : List Nat}
    (hchain : followB s.heap (fun n => n.next) s.head ids none = true)
    {i : Nat} (hge : ids.length ≤ i) : headTraverse s i = none := by
  rw [headTraverse, followB_iterLink_none s.head i hchain hge]
  rfl

theorem headTraverse_in_range {s : LState α} {ids : List Nat}
    (hchain : followB s.heap (fun n => n.next) s.head ids none = true)
    {i : Nat} (hlt : i < ids.length) :
    ∃ j n, ids[i]? = some j ∧ lookupH s.heap j = some n ∧
      headTraverse s i = some n.data := by
  have hit : iterLink s.heap (fun n => n.next) s.head i = ids[i]? :=
    followB_iterLink s.head i hchain hlt
  rw [List.getElem?_eq_getElem hlt] at hit
  have hjmem : ids[i] ∈ ids := List.getElem_mem hlt
  rcases followB_lookup_some s.head hchain ids[i] hjmem with ⟨n, hn⟩
  refine ⟨ids[i], n, List.getElem?_eq_getElem hlt, hn, ?_⟩
  rw [headTraverse, hit]
  simp [hn]

theorem nth_value_spec {s : LState α} {ids : List Nat}
    (hr : RepInv s ids) (i : Nat) :
    (UnsafeLinkedList.nth s i).map (fun r => r.1) = some (headTraverse s i) ∧
    (i < s.len → (headTraverse s i).isSome = true) ∧
    (s.len ≤ i → headTraverse s i = none) := by
  obtain ⟨hnext, hprev, hlen, hnd, hkeys, hknd, hfr⟩ := hr
  by_cases hge : i ≥ s.len
  · have hout : headTraverse s i = none :=
      headTraverse_out_of_range hnext (by omega)
    refine ⟨?_, fun hlt => absurd hlt (by omega), fun _ => hout⟩
    rw [UnsafeLinkedList.nth, if_pos hge, hout]
    rfl
  · have hlt : i < s.len := by omega
    have hlt2 : i < ids.length := by omega
    rcases headTraverse_in_range hnext hlt2 with ⟨j, n, hj, hn, hht⟩
    refine ⟨?_, fun _ => by simp [hht], fun hgt => absurd hgt (by omega)⟩
    rw [UnsafeLinkedList.nth, if_neg (by omega)]
    by_cases hbr : i < s.len / 2
    · rw [if_pos hbr]
      have hit : iterLink s.heap (fun n => n.next) s.head i = ids[i]? :=
        followB_iterLink s.head i hnext hlt2
      simp only [hit, hj, hn, hht, Option.map_some]
      rfl
    · rw [if_neg hbr]
      -- traversal from the tail side along the prev chain
      have hk : s.len - i - 1 < ids.reverse.length := by
        rw [List.length_reverse]
        omega
      have hit : iterLink s.heap (fun n => n.prev) s.tail (s.len - i - 1) =
          ids.reverse[s.len - i - 1]? :=
        followB_iterLink s.tail (s.len - i - 1) hprev hk
      have hrevj : ids.reverse[s.len - i - 1]? = some j := by
        rw [List.getElem?_eq_getElem hk, List.getElem_reverse]
        have hidx : ids.length - 1 - (s.len - i - 1) = i := by omega
        rw [List.getElem?_eq_getElem hlt2] at hj
        simp only [hidx]
        exact congrArg some (Option.some_inj.mp hj)
      simp only [hit, hrevj, hn, hht, Option.map_some]
      rfl

end NthLemmas

/-- C1: the claim states that after `pop_front` the new tail-side terminal's
forward (`next`) relation is set to none and every relation field pointing at
the removed node is cleared, in both engines. The unsafe engine violates
this: popping the two-element list `push_front 0; push_front 1` frees node 1
but leaves the surviving node 0 (the new tail) with `next` still pointing at
the freed node. -/
theorem claim_C1_unsafe_pop_front_leaves_stale_next :
    UnsafeLinkedList.pop_front (UnsafeLinkedList.push_front (UnsafeLinkedList.push_front (UnsafeLinkedList.new : LState Nat) 0) 1) =
      some (some 1, { heap := [(0, { data := 0, prev := none, next := some 1 })], head := some 0, tail := some 0, len := 1, fresh := 2 }) ∧
    (lookupH [(0, ({ data := 0, prev := none, next := some 1 } : Node Nat))] 0).map (·.next) = some (some 1) ∧
    lookupH [(0, ({ data := 0, prev := none, next := some 1 } : Node Nat))] 1 = none := by
  refine ⟨by decide, by decide, by decide⟩

/-- C2: the claim states the invariant `count == 0 iff both terminal references
are absent` in every reachable state of both engines. The unsafe engine
violates it: removing the only node of a one-element list with `pop_front`
leaves `len = 0` while `head` still holds the pointer to the freed node. -/
theorem claim_C2_unsafe_terminal_not_cleared :
    UnsafeLinkedList.pop_front (UnsafeLinkedList.push_front (UnsafeLinkedList.new : LState Nat) 0) =
      some (some 0, { heap := [], head := some 0, tail := none, len := 0, fresh := 1 }) ∧
    ({ heap := [], head := some 0, tail := none, len := 0, fresh := 1 } : LState Nat).len = 0 ∧
    ¬(({ heap := [], head := some 0, tail := none, len := 0, fresh := 1 } : LState Nat).head = none) := by
  refine ⟨by decide, rfl, by decide⟩

/-- C3 counterexample: the claim states that `linked_list![0, 1, 2]` has
head-to-tail order 2, 1, 0 and displays as "[2, 1, 0]". The code's display
renders it as "[0, 1, 2]" (its own test asserts exactly this). -/
theorem claim_C3_display_counterexample :
    displayString (fun n => toString n) (linked_list [0, 1, 2] : LState Nat) = "[0, 1, 2]" ∧
    ¬(displayString (fun n => toString n) (linked_list [0, 1, 2] : LState Nat) = "[2, 1, 0]") := by
  refine ⟨by decide, by decide⟩

/-- C3 (amended): for every literal sequence `v1, ..., vn` the list built by
the literal-sequence constructor has head-to-tail order `v1, ..., vn` — the
same as the literal's left-to-right order, because the macro's `push_front`
appends at the code's tail end — and the display formatting, which renders
from the head-side terminal to the tail-side terminal, renders it as
"[v1, ..., vn]". -/
theorem claim_C3_literal_constructor_order (α : Type) (vs : List α)
    (f : α → String) :
    ∃ ids, RepInv (linked_list vs) ids ∧
      chainData (linked_list vs).heap ids = vs ∧
      displayString f (linked_list vs) = "[" ++ commaJoin (vs.map f) ++ "]" := by
  rcases linked_list_spec vs with ⟨ids, hr, hd⟩
  refine ⟨ids, hr, hd, ?_⟩
  rw [displayString_spec hr.1 hr.2.2.2.1 f, hd]

/-- C4: for every one-element `SafeLinkedList`, both `pop_front` and
`pop_back` return `some` of the stored value, and the
`Rc::try_unwrap(...).ok().unwrap()` extraction cannot fail with a
"still shared" panic (the model's outer `Option` is `some`, i.e. the
strong-count check succeeds), because the removal clears the other terminal
slot first when the count is 1. -/
theorem claim_C4_single_node_safe_pop_succeeds (α : Type) (s : LState α)
    (i : Nat) (hr : RepInv s [i]) :
    ∃ n s1 s2, lookupH s.heap i = some n ∧
      SafeLinkedList.pop_front s = some (some n.data, s1) ∧
      SafeLinkedList.pop_back s = some (some n.data, s2) := by
  rcases safe_pop_front_single hr with ⟨n, hl, hpf⟩
  rcases @safe_pop_back_step _ s i [] hr with ⟨n2, s2, hl2, hpb, _, _⟩
  have hnn : n2 = n := by
    rw [hl] at hl2
    exact Option.some_inj.mp hl2.symm
  subst hnn
  exact ⟨n2, _, s2, hl, hpf, hpb⟩

/-- C4 witness: the one-element safe list holding 7 satisfies the invariant,
and both removals succeed with value 7. -/
theorem claim_C4_witness :
    RepInv (SafeLinkedList.push_front (SafeLinkedList.new : LState Nat) 7) [0] ∧
    ∃ n s1 s2,
      lookupH (SafeLinkedList.push_front (SafeLinkedList.new : LState Nat) 7).heap 0 = some n ∧
      SafeLinkedList.pop_front (SafeLinkedList.push_front (SafeLinkedList.new : LState Nat) 7) = some (some n.data, s1) ∧
      SafeLinkedList.pop_back (SafeLinkedList.push_front (SafeLinkedList.new : LState Nat) 7) = some (some n.data, s2) :=
  ⟨by decide, claim_C4_single_node_safe_pop_succeeds Nat _ 0 (by decide)⟩

/-- C5: the claim states `push_front x` then `pop_front` returns `x` and
restores the prior state exactly, in both engines. The unsafe engine
violates the restoration: starting from the empty list, the round trip
returns 5 but leaves `head` pointing at the freed node instead of `none`. -/
theorem claim_C5_roundtrip_not_restored :
    UnsafeLinkedList.pop_front (UnsafeLinkedList.push_front (UnsafeLinkedList.new : LState Nat) 5) =
      some (some 5, { heap := [], head := some 0, tail := none, len := 0, fresh := 1 }) ∧
    (UnsafeLinkedList.new : LState Nat).head = none ∧
    ¬(({ heap := [], head := some 0, tail := none, len := 0, fresh := 1 } : LState Nat).head = (UnsafeLinkedList.new : LState Nat).head) := by
  refine ⟨by decide, rfl, by decide⟩

/-- C6: the claim states `nth` leaves the list completely unchanged and
destroys no node. The code's `nth` rebuilds a `Box` from the visited node's
pointer and drops it: on the one-element list holding 0, `nth 0` returns the
value but deallocates the node, leaving `head` and `tail` dangling. -/
theorem claim_C6_nth_frees_node :
    UnsafeLinkedList.nth (UnsafeLinkedList.push_front (UnsafeLinkedList.new : LState Nat) 0) 0 =
      some (some 0, { heap := [], head := some 0, tail := some 0, len := 1, fresh := 1 }) ∧
    lookupH (UnsafeLinkedList.push_front (UnsafeLinkedList.new : LState Nat) 0).heap 0 = some { data := 0, prev := none, next := none } ∧
    lookupH ({ heap := [], head := some 0, tail := some 0, len := 1, fresh := 1 } : LState Nat).heap 0 = none := by
  refine ⟨by decide, by decide, by decide⟩

/-- C7: for every well-formed list and every index, `nth` returns exactly the
value obtained by linear traversal from the head-side terminal `i` steps
forward (so the head-side and tail-side traversal branches agree), that
value is present for every in-range index, and `nth` returns the absent
signal for every out-of-range index. -/
theorem claim_C7_nth_matches_head_traversal (α : Type) (s : LState α)
    (ids : List Nat) (i : Nat) (hr : RepInv s ids) :
    (UnsafeLinkedList.nth s i).map (fun r => r.1) = some (headTraverse s i) ∧
    (i < s.len → (headTraverse s i).isSome = true) ∧
    (s.len ≤ i → headTraverse s i = none) :=
  nth_value_spec hr i

/-- C7 witness: on the three-element list built from the literal
[10, 20, 30], index 2 (served by the tail-side traversal branch) agrees
with the head-side traversal. -/
theorem claim_C7_witness :
    RepInv (linked_list [10, 20, 30] : LState Nat) [0, 1, 2] ∧
    ((UnsafeLinkedList.nth (linked_list [10, 20, 30] : LState Nat) 2).map (fun r => r.1) = some (headTraverse (linked_list [10, 20, 30] : LState Nat) 2) ∧
     (2 < (linked_list [10, 20, 30] : LState Nat).len → (headTraverse (linked_list [10, 20, 30] : LState Nat) 2).isSome = true) ∧
     ((linked_list [10, 20, 30] : LState Nat).len ≤ 2 → headTraverse (linked_list [10, 20, 30] : LState Nat) 2 = none)) :=
  ⟨by decide, claim_C7_nth_matches_head_traversal Nat _ [0, 1, 2] 2 (by decide)⟩

/-- C8: on the empty list of either engine, every removal and every peek
returns the absent signal without fault, and the removals leave the state
(and in particular the length, still 0) unchanged. -/
theorem claim_C8_empty_list_ops_absent (α : Type) :
    UnsafeLinkedList.pop_front (UnsafeLinkedList.new : LState α) = some (none, UnsafeLinkedList.new) ∧
    UnsafeLinkedList.pop_back (UnsafeLinkedList.new : LState α) = some (none, UnsafeLinkedList.new) ∧
    UnsafeLinkedList.front (UnsafeLinkedList.new : LState α) = none ∧
    UnsafeLinkedList.front_mut (UnsafeLinkedList.new : LState α) = none ∧
    UnsafeLinkedList.back (UnsafeLinkedList.new : LState α) = none ∧
    UnsafeLinkedList.back_mut (UnsafeLinkedList.new : LState α) = none ∧
    SafeLinkedList.pop_front (SafeLinkedList.new : LState α) = some (none, SafeLinkedList.new) ∧
    SafeLinkedList.pop_back (SafeLinkedList.new : LState α) = some (none, SafeLinkedList.new) ∧
    SafeLinkedList.peek_front (SafeLinkedList.new : LState α) = none ∧
    SafeLinkedList.peek_back (SafeLinkedList.new : LState α) = none ∧
    SafeLinkedList.peek_front_mut (SafeLinkedList.new : LState α) = none ∧
    SafeLinkedList.peek_back_mut (SafeLinkedList.new : LState α) = none :=
  ⟨rfl, rfl, rfl, rfl, rfl, rfl, rfl, rfl, rfl, rfl, rfl, rfl⟩

/-- C9: the claim states `clear` (and whole-list destruction) destroys every
remaining node with no leaks. The unsafe engine's `clear` is
`*self = Self::new()` and there is no `Drop` impl: on a one-element list it
resets the struct fields but the node's allocation survives unreferenced in
the heap — a leak, not a destruction. -/
theorem claim_C9_clear_leaks_nodes :
    UnsafeLinkedList.clear (UnsafeLinkedList.push_front (UnsafeLinkedList.new : LState Nat) 0) =
      { heap := [(0, { data := 0, prev := none, next := none })], head := none, tail := none, len := 0, fresh := 1 } ∧
    lookupH ({ heap := [(0, { data := 0, prev := none, next := none })], head := none, tail := none, len := 0, fresh := 1 } : LState Nat).heap 0 =
      some { data := 0, prev := none, next := none } ∧
    ¬(({ heap := [(0, { data := 0, prev := none, next := none })], head := none, tail := none, len := 0, fresh := 1 } : LState Nat).heap = []) := by
  refine ⟨by decide, by decide, by decide⟩

/-- C10: for every list of either engine built by any sequence of insertions,
the consuming iterator (whose `next` is `pop_back`) drains exactly the
sequence of values that the Display formatting renders, in the same order,
and once exhausted every further `next` returns the absent signal and leaves
the state fixed. -/
theorem claim_C10_drain_matches_display (α : Type) (f : α → String)
    (ops : List (PushOp α)) :
    ∃ vals sU2 sS2,
      UnsafeLinkedList.drain (buildFromU UnsafeLinkedList.new ops).len
        (buildFromU UnsafeLinkedList.new ops) = (vals, sU2) ∧
      SafeLinkedList.drain (buildFromS SafeLinkedList.new ops).len
        (buildFromS SafeLinkedList.new ops) = (vals, sS2) ∧
      displayString f (buildFromU UnsafeLinkedList.new ops) =
        "[" ++ commaJoin (vals.map f) ++ "]" ∧
      displayString f (buildFromS SafeLinkedList.new ops) =
        "[" ++ commaJoin (vals.map f) ++ "]" ∧
      UnsafeLinkedList.pop_back sU2 = some (none, sU2) ∧
      SafeLinkedList.pop_back sS2 = some (none, sS2) := by
  rcases buildFromU_repInv ops UnsafeLinkedList.new [] repInv_new with ⟨ids, hr⟩
  have hSU : buildFromS SafeLinkedList.new ops = buildFromU UnsafeLinkedList.new ops := by
    rw [safe_new_eq]
    exact buildFromS_eq ops _ [] repInv_new
  have hlenU : (buildFromU UnsafeLinkedList.new ops).len = ids.length := hr.2.2.1
  rcases unsafe_drain_spec ids _ (repInv_repNexts hr) with ⟨sU2, hdU, hhU, hpU⟩
  rcases safe_drain_spec ids _ hr with ⟨sS2, hdS, hrS2, hpS⟩
  refine ⟨chainData (buildFromU UnsafeLinkedList.new ops).heap ids, sU2, sS2,
    ?_, ?_, ?_, ?_, hpU, hpS⟩
  · rw [hlenU]
    exact hdU
  · rw [hSU, hlenU]
    exact hdS
  · exact displayString_spec hr.1 hr.2.2.2.1 f
  · rw [hSU]
    exact displayString_spec hr.1 hr.2.2.2.1 f
